import Mathlib

/-!
Verification of the lxDIG-visual layout and interaction geometry engine.

This file gives a shallow embedding of the layout engine
(`src/lib/layoutEngine.ts`), the edge geometry (`src/lib/graphVisuals.ts`)
and the drag propagation (`src/App.tsx`, `collectDragPropagationUpdates`),
and proves or refutes the specification claims about them.

Conventions of the embedding:
- JavaScript objects used as string-keyed records become association lists
  `List (String × α)`; lookup, insert and push mirror record access.
- JavaScript numbers become `ℝ` where square roots occur and `ℕ`/`ℤ`
  otherwise; all literal constants are taken verbatim from the source.
- `Array.prototype.sort` (a stable sort) becomes a stable insertion sort;
  `localeCompare` is modelled as the code-point order on strings, which
  agrees with it on the ASCII identifiers used throughout.
- The BFS and drag loops carry an explicit fuel chosen large enough to
  cover every reachable iteration count; invariant proofs do not depend
  on the fuel value.
-/

namespace LxDIG

/-- Association list lookup, mirroring JavaScript record access `m[k]`. -/
def alFind {α : Type} : List (String × α) → String → Option α
  | [], _ => none
  | (k, v) :: rest, key => if k = key then some v else alFind rest key

/-- Association list update, mirroring JavaScript record assignment `m[k] = v`. -/
def alSet {α : Type} : List (String × α) → String → α → List (String × α)
  | [], k, v => [(k, v)]
  | (k', v') :: rest, k, v =>
      if k' = k then (k, v) :: rest else (k', v') :: alSet rest k v

/-- Mirrors `if (!(k in m)) m[k] = v`. -/
def alSetIfAbsent {α : Type} (m : List (String × α)) (k : String) (v : α) :
    List (String × α) :=
  match alFind m k with
  | some _ => m
  | none => m ++ [(k, v)]

/-- Mirrors `m[k] = m[k] ?? []; m[k].push(v)`. -/
def alPush : List (String × List String) → String → String → List (String × List String)
  | [], k, v => [(k, [v])]
  | (k', vs) :: rest, k, v =>
      if k' = k then (k', vs ++ [v]) :: rest else (k', vs) :: alPush rest k v

/-- Mirrors `m[k] ?? []`. -/
def alGetList (m : List (String × List String)) (k : String) : List String :=
  (alFind m k).getD []

/-- Mirrors `arr.filter((x, i, a) => a.indexOf(x) === i)`: keep first occurrences. -/
def dedupFirstAux : List String → List String → List String
  | [], _ => []
  | x :: xs, seen =>
      if x ∈ seen then dedupFirstAux xs seen else x :: dedupFirstAux xs (x :: seen)

def dedupFirst (l : List String) : List String := dedupFirstAux l []

/-- Stable insertion used by the stable sort: an element moves past `y` only
when `y` is strictly smaller, so equal elements keep their original order,
as `Array.prototype.sort` guarantees. -/
def insertByLt (lt : String → String → Bool) (x : String) : List String → List String
  | [] => [x]
  | y :: ys => if lt y x then y :: insertByLt lt x ys else x :: y :: ys

/-- Stable sort modelling `Array.prototype.sort` with a comparator. -/
def sortByLt (lt : String → String → Bool) : List String → List String
  | [] => []
  | x :: xs => insertByLt lt x (sortByLt lt xs)

/-- Code-point comparison on character lists. -/
def charListLt : List Char → List Char → Bool
  | [], [] => false
  | [], _ :: _ => true
  | _ :: _, [] => false
  | a :: as, b :: bs =>
      if a.toNat < b.toNat then true
      else if b.toNat < a.toNat then false
      else charListLt as bs

/-- Comparator `(a, b) => a.localeCompare(b)`, modelled as code-point order
(which agrees with `localeCompare` on the ASCII identifiers in use). -/
def strLt (a b : String) : Bool := charListLt a.data b.data

/-! ## Data model (`src/types/graph.ts`, `src/config/constants.ts`) -/

inductive VisualNodeKind
  | layer | moduleKind | service | file
  deriving Repr, DecidableEq

structure GraphNodeEntity where
  id : String
  label : String
  visualKind : VisualNodeKind
  expanded : Bool
  deriving Repr, DecidableEq

structure GraphEdgeEntity where
  id : String
  source : String
  target : String
  deriving Repr, DecidableEq

/-- `MAX_VISIBLE_SIBLINGS` from `src/config/constants.ts`. -/
def MAX_VISIBLE_SIBLINGS : ℕ := 20

/-- Comparator `(a, b) => (nodesById[a]?.label ?? a).localeCompare(nodesById[b]?.label ?? b)`. -/
def labelOf (nodesById : List (String × GraphNodeEntity)) (idKey : String) : String :=
  match alFind nodesById idKey with
  | some n => n.label
  | none => idKey

def labelLt (nodesById : List (String × GraphNodeEntity)) (a b : String) : Bool :=
  strLt (labelOf nodesById a) (labelOf nodesById b)

/-! ## Topology Builder (`computeLayoutTopology`, `src/lib/layoutEngine.ts`) -/

structure LayoutInput where
  rootNodeId : Option String
  connectionDepth : ℕ
  nodesById : List (String × GraphNodeEntity)
  edges : List GraphEdgeEntity
  childIdsByParent : List (String × List String)
  siblingPageByParent : List (String × ℕ)

/-- Direction-agnostic adjacency built from the edge map
(`adjacencyByNode` construction in `computeLayoutTopology`). -/
def buildAdjacency (edges : List GraphEdgeEntity) : List (String × List String) :=
  edges.foldl (fun acc e => alPush (alPush acc e.source e.target) e.target e.source) []

structure QueueEntry where
  id : String
  depth : ℕ
  deriving Repr, DecidableEq

structure BfsState where
  visible : List String
  depthByNodeId : List (String × ℕ)
  parentByNodeId : List (String × Option String)
  queue : List QueueEntry
  deriving Repr

/-- The deduplicated, twice-sorted, windowed neighbor list computed when the
BFS processes `node`: union of edges touching the node (falling back to the
explicit child list), deduplicated, sorted by id, then stably re-sorted by
label, and sliced to `[page * P, page * P + P)`. -/
def windowedNeighbors (input : LayoutInput) (adjacency : List (String × List String))
    (nodeId : String) : List String :=
  let adj := alGetList adjacency nodeId
  let fallbackChildren := alGetList input.childIdsByParent nodeId
  let allNeighbors := sortByLt strLt (dedupFirst (if adj.length > 0 then adj else fallbackChildren))
  let page := (alFind input.siblingPageByParent nodeId).getD 0
  let start := page * MAX_VISIBLE_SIBLINGS
  ((sortByLt (labelLt input.nodesById) allNeighbors).drop start).take MAX_VISIBLE_SIBLINGS

/-- One dequeue step of the BFS, given the already-dequeued entry. -/
def bfsProcess (input : LayoutInput) (adjacency : List (String × List String))
    (current : QueueEntry) (s : BfsState) : BfsState :=
  match alFind input.nodesById current.id with
  | none => s
  | some node =>
      if node.id ∈ s.visible then s
      else
        let s1 : BfsState :=
          { visible := s.visible ++ [node.id]
            depthByNodeId := alSet s.depthByNodeId node.id current.depth
            parentByNodeId := alSetIfAbsent s.parentByNodeId node.id none
            queue := s.queue }
        if ¬ node.expanded ∨ current.depth ≥ input.connectionDepth then s1
        else
          let neighbors := windowedNeighbors input adjacency node.id
          neighbors.foldl
            (fun st neighborId =>
              { st with
                parentByNodeId := alSetIfAbsent st.parentByNodeId neighborId (some node.id)
                queue := st.queue ++ [⟨neighborId, current.depth + 1⟩] })
            s1

/-- The BFS loop of `computeLayoutTopology`, with explicit fuel. -/
def bfsLoop (input : LayoutInput) (adjacency : List (String × List String)) :
    ℕ → BfsState → BfsState
  | 0, s => s
  | fuel + 1, s =>
      match s.queue with
      | [] => s
      | current :: rest =>
          bfsLoop input adjacency fuel (bfsProcess input adjacency current { s with queue := rest })

/-- Fuel bound: every iteration consumes one queue entry, the initial queue
has one entry, and each of the at most `|nodesById|` processing steps pushes
at most `MAX_VISIBLE_SIBLINGS` entries. -/
def bfsFuel (input : LayoutInput) : ℕ :=
  1 + MAX_VISIBLE_SIBLINGS * input.nodesById.length + input.nodesById.length

def bfsRun (input : LayoutInput) (root : String) : BfsState :=
  bfsLoop input (buildAdjacency input.edges) (bfsFuel input)
    ⟨[], [], [], [⟨root, 0⟩]⟩

structure LayoutTopology where
  visibleNodeIds : List String
  depthByNodeId : List (String × ℕ)
  childIdsByParent : List (String × List String)
  visibleEdges : List GraphEdgeEntity
  rootNodeId : String
  deriving Repr

/-- The visible-child map rebuilt after the BFS: input children filtered to
visible nodes, sorted by label, kept only when non-empty. -/
def visibleChildIds (input : LayoutInput) (visible : List String) :
    List (String × List String) :=
  visible.foldl
    (fun acc nodeId =>
      let children := sortByLt (labelLt input.nodesById)
        ((alGetList input.childIdsByParent nodeId).filter (fun c => decide (c ∈ visible)))
      if children.length > 0 then acc ++ [(nodeId, children)] else acc)
    []

/-- `computeLayoutTopology` from `src/lib/layoutEngine.ts`. The guard
`if (!rootNodeId || !nodesById[rootNodeId]) return null` is falsy for a
null root, an empty-string root, and a root absent from the node map. -/
def computeLayoutTopology (input : LayoutInput) : Option LayoutTopology :=
  match input.rootNodeId with
  | none => none
  | some root =>
      if root = "" then none
      else
        match alFind input.nodesById root with
        | none => none
        | some _ =>
            let final := bfsRun input root
            let visibleEdges := input.edges.filter
              (fun e => decide (e.source ∈ final.visible) && decide (e.target ∈ final.visible))
            some
              { visibleNodeIds := final.visible
                depthByNodeId := final.depthByNodeId
                childIdsByParent := visibleChildIds input final.visible
                visibleEdges := visibleEdges
                rootNodeId := root }

/-! ## Angle Allocator (`computeSubtreeWeight`, `buildTargetAngleById`) -/

mutual

/-- `computeSubtreeWeight` from `src/lib/layoutEngine.ts`: weight of a node,
memoized in a cache shared across calls (threaded explicitly here), with a
per-path `visiting` guard returning 1 on re-entry. The fuel bounds the
recursion depth; `visiting` gains a distinct key each level, so any fuel
larger than the number of child-map entries is never exhausted. -/
def computeSubtreeWeight (cbp : List (String × List String)) :
    ℕ → String → List (String × ℕ) → List String → ℕ × List (String × ℕ)
  | 0, _, cache, _ => (1, cache)
  | fuel + 1, nodeId, cache, visiting =>
      match alFind cache nodeId with
      | some c => (c, cache)
      | none =>
          if nodeId ∈ visiting then (1, cache)
          else
            let children := alGetList cbp nodeId
            if children.isEmpty then (1, alSet cache nodeId 1)
            else
              let r := sumChildWeights cbp fuel (nodeId :: visiting) children cache
              (1 + r.1, alSet r.2 nodeId (1 + r.1))

/-- The `children.reduce` fold inside `computeSubtreeWeight`, threading the
shared cache left to right. -/
def sumChildWeights (cbp : List (String × List String)) (fuel : ℕ)
    (visiting : List String) :
    List String → List (String × ℕ) → ℕ × List (String × ℕ)
  | [], cache => (0, cache)
  | c :: cs, cache =>
      let r := computeSubtreeWeight cbp fuel c cache visiting
      let rest := sumChildWeights cbp fuel visiting cs r.2
      (r.1 + rest.1, rest.2)

end

/-- Modelled from the claim text of C5 (and spec section 4.2): the
path-sensitive weight recursion `weight(node) = 1 + Σ weight(child)` over the
filtered visible children, leaves have weight 1, and any node re-entered on
the same recursive path contributes weight 1. This is the comparison
definition the cached implementation is checked against. -/
def specWeight (cbp : List (String × List String)) : ℕ → String → List String → ℕ
  | 0, _, _ => 1
  | fuel + 1, nodeId, path =>
      if nodeId ∈ path then 1
      else
        let children := alGetList cbp nodeId
        if children.isEmpty then 1
        else 1 + (children.map (fun c => specWeight cbp fuel c (nodeId :: path))).sum

/-- The `children.map` step of `assign` in `buildTargetAngleById`: pair each
child with its subtree weight, threading the shared cache left to right
(each call starts with a fresh empty `visiting` set, as in the source). -/
def weightedChildren (cbp : List (String × List String)) (fuel : ℕ) :
    List String → List (String × ℕ) → List (String × ℕ) × List (String × ℕ)
  | [], cache => ([], cache)
  | c :: cs, cache =>
      let r := computeSubtreeWeight cbp fuel c cache []
      let rest := weightedChildren cbp fuel cs r.2
      ((c, r.1) :: rest.1, rest.2)

/-- The cursor recurrence of `assign`, materialized: for each weighted child,
its slice start (the cursor) and its slice width
`span * (weight / totalWeight)`; the cursor advances by the slice width. -/
noncomputable def sliceTable (span : ℝ) (total : ℕ) :
    ℝ → List (String × ℕ) → List (String × ℝ × ℝ)
  | _, [] => []
  | cursor, (c, w) :: rest =>
      let slice := span * ((w : ℝ) / (total : ℝ))
      (c, cursor, slice) :: sliceTable span total (cursor + slice) rest

structure AssignState where
  angleById : List (String × ℝ)
  cache : List (String × ℕ)

mutual

/-- The recursive `assign` of `buildTargetAngleById`: weight the children
through the shared cache, compute `totalWeight` (`|| 1` on zero), slice the
span `[startAngle, endAngle]` proportionally, record each child angle at its
slice midpoint and recurse into the slice, guarded by the traversal path. -/
noncomputable def assign (cbp : List (String × List String)) (wfuel : ℕ) :
    ℕ → String → ℝ → ℝ → List String → AssignState → AssignState
  | 0, _, _, _, _, st => st
  | fuel + 1, nodeId, startAngle, endAngle, path, st =>
      if nodeId ∈ path then st
      else
        let children := alGetList cbp nodeId
        if children.isEmpty then st
        else
          let wc := weightedChildren cbp wfuel children st.cache
          let sumW := (wc.1.map (·.2)).sum
          let totalWeight := if sumW = 0 then 1 else sumW
          let span := endAngle - startAngle
          assignChildren cbp wfuel fuel (nodeId :: path)
            (sliceTable span totalWeight startAngle wc.1)
            { st with cache := wc.2 }

/-- The `weightedChildren.forEach` loop of `assign`: write the slice midpoint
angle for each child and recurse into its slice. -/
noncomputable def assignChildren (cbp : List (String × List String)) (wfuel : ℕ) :
    ℕ → List String → List (String × ℝ × ℝ) → AssignState → AssignState
  | _, _, [], st => st
  | fuel, path, (c, cursor, slice) :: rest, st =>
      let st1 : AssignState := { st with angleById := alSet st.angleById c (cursor + slice / 2) }
      let st2 := assign cbp wfuel fuel c cursor (cursor + slice) path st1
      assignChildren cbp wfuel fuel path rest st2

end

/-- `buildTargetAngleById` from `src/lib/layoutEngine.ts`: the root is given
angle `-π/2` and the full circle `[-π, π]` is partitioned recursively. -/
noncomputable def buildTargetAngleById (rootNodeId : String)
    (cbp : List (String × List String)) : List (String × ℝ) :=
  (assign cbp (cbp.length + 1) (cbp.length + 1) rootNodeId (-Real.pi) Real.pi []
    ⟨[(rootNodeId, -(Real.pi / 2))], []⟩).angleById

/-! ## Radius Allocator (`buildDepthRingRadius`) and node footprints -/

def nalFind {α : Type} : List (ℕ × α) → ℕ → Option α
  | [], _ => none
  | (k, v) :: rest, key => if k = key then some v else nalFind rest key

def nalSet {α : Type} : List (ℕ × α) → ℕ → α → List (ℕ × α)
  | [], k, v => [(k, v)]
  | (k', v') :: rest, k, v =>
      if k' = k then (k, v) :: rest else (k', v') :: nalSet rest k v

def natInsertAsc (x : ℕ) : List ℕ → List ℕ
  | [] => [x]
  | y :: ys => if y < x then y :: natInsertAsc x ys else x :: y :: ys

def natSortAsc : List ℕ → List ℕ
  | [] => []
  | x :: xs => natInsertAsc x (natSortAsc xs)

/-- `NODE_WIDTH_BY_KIND` from `src/config/constants.ts`. -/
noncomputable def NODE_WIDTH_BY_KIND : VisualNodeKind → ℝ
  | .layer => 172
  | .moduleKind => 152
  | .service => 152
  | .file => 148

/-- `NODE_HEIGHT_BY_KIND` from `src/config/constants.ts`. -/
noncomputable def NODE_HEIGHT_BY_KIND : VisualNodeKind → ℝ
  | .layer => 62
  | .moduleKind => 56
  | .service => 56
  | .file => 56

/-- The `scale` field of `getDepthVisual` (`src/lib/graphVisuals.ts`):
`max(minScale, 1 - clampedDepth * scaleStep)` with `DEPTH_VISUAL` constants
`maxDepth = 4`, `scaleStep = 0.085`, `minScale = 0.62`. The `opacity` field
is display-only and unused by the layout claims, so it is not embedded. -/
noncomputable def getDepthVisualScale (depth : ℤ) : ℝ :=
  let clampedDepth : ℤ := max 0 (min depth 4)
  max 0.62 (1 - (clampedDepth : ℝ) * 0.085)

/-- The per-node footprint half-extent used throughout `computeForcePositions`
and `buildDepthRingRadius`:
`max(W[kind] * scale / 2, H[kind] * scale / 2)`. -/
noncomputable def sizeRadius (node : GraphNodeEntity) (depth : ℕ) : ℝ :=
  let scale := getDepthVisualScale (depth : ℤ)
  max (NODE_WIDTH_BY_KIND node.visualKind * scale / 2)
    (NODE_HEIGHT_BY_KIND node.visualKind * scale / 2)

/-- The first pass of `buildDepthRingRadius`: per-depth maximum footprint
radius and per-depth node count, accumulated over the visible nodes. -/
noncomputable def depthStats (visibleNodeIds : List String)
    (depthByNodeId : List (String × ℕ)) (nodesById : List (String × GraphNodeEntity)) :
    List (ℕ × ℝ) × List (ℕ × ℕ) :=
  visibleNodeIds.foldl
    (fun acc nodeId =>
      match alFind nodesById nodeId with
      | none => acc
      | some node =>
          let depth := (alFind depthByNodeId nodeId).getD 0
          let radius := sizeRadius node depth
          (nalSet acc.1 depth (max ((nalFind acc.1 depth).getD 0) radius),
           nalSet acc.2 depth ((nalFind acc.2 depth).getD 0 + 1)))
    ([], [])

/-- `buildDepthRingRadius` from `src/lib/layoutEngine.ts`: `ring(0) = 0` and
`ring(d) = ring(d-1) + nodeRadius(d-1) + nodeRadius(d) + 54 + min(150, count(d) * 2.2)`
over the ascending depth keys. -/
noncomputable def buildDepthRingRadius (visibleNodeIds : List String)
    (depthByNodeId : List (String × ℕ)) (nodesById : List (String × GraphNodeEntity)) :
    List (ℕ × ℝ) :=
  let stats := depthStats visibleNodeIds depthByNodeId nodesById
  let depthKeys := natSortAsc (stats.1.map (·.1))
  depthKeys.foldl
    (fun ring depth =>
      if depth = 0 then ring
      else
        let prevRadius := (nalFind ring (depth - 1)).getD 0
        let prevNodeRadius := (nalFind stats.1 (depth - 1)).getD 54
        let currentNodeRadius := (nalFind stats.1 depth).getD 54
        let densityBoost := min 150 (((nalFind stats.2 depth).getD 0 : ℝ) * 2.2)
        nalSet ring depth (prevRadius + prevNodeRadius + currentNodeRadius + (54 + densityBoost)))
    [(0, 0)]

/-! ## Force Simulator (`computeForcePositions`)

The d3-force engine itself is an external library, not part of this
repository. Its tick loop is modelled from the spec (sections 4.4 and 5):
forces (a)-(f) combined additively per tick, the root pinned, randomness
drawn exclusively from the installed seeded generator for zero-distance
jitter, and a fixed tick budget. The claims settled against this model (C4
determinism, C8 tick budget) depend only on the engine being a pure
function of its input and on the tick counting, not on force details. -/

def CANVAS_WIDTH : ℕ := 1800
def CANVAS_HEIGHT : ℕ := 1200

/-- `createDeterministicRandom` seed from `src/lib/layoutEngine.ts`. -/
def createDeterministicRandomSeed : ℕ := 137

/-- One update of the linear congruential generator in
`createDeterministicRandom`: `value = (value * 1664525 + 1013904223) % 4294967296`. -/
def lcgStep (value : ℕ) : ℕ := (value * 1664525 + 1013904223) % 4294967296

/-- One draw from `createDeterministicRandom`: update the state, return
`value / 4294967296`. -/
noncomputable def lcgDraw (value : ℕ) : ℕ × ℝ :=
  (lcgStep value, ((lcgStep value : ℝ) / 4294967296))

structure SimNode where
  id : String
  depth : ℕ
  radius : ℝ
  childCount : ℕ
  targetX : ℝ
  targetY : ℝ
  x : ℝ
  y : ℝ
  vx : ℝ
  vy : ℝ
  pinned : Bool

structure SimState where
  nodes : List SimNode
  alpha : ℝ
  rng : ℕ

structure ForcePositionInput where
  visibleNodeIds : List String
  depthByNodeId : List (String × ℕ)
  nodesById : List (String × GraphNodeEntity)
  childIdsByParent : List (String × List String)
  edges : List GraphEdgeEntity
  rootNodeId : String

/-- `Math.hypot`. -/
noncomputable def hypot (a b : ℝ) : ℝ := Real.sqrt (a ^ 2 + b ^ 2)

/-- Modelled from the spec: the d3 `jiggle` helper — a tiny random
displacement `(random() - 0.5) * 1e-6` used to separate exactly coincident
points, drawing from the installed random source. -/
noncomputable def jiggle (rng : ℕ) : ℕ × ℝ :=
  let d := lcgDraw rng
  (d.1, (d.2 - 0.5) * 1e-6)

/-- Modelled from the spec: capped-range pairwise repulsion (force (b),
strength -220, range 920), applied from every other node to `n`, with
seeded jitter on coincident pairs. Returns the updated rng state and
velocity increments. -/
noncomputable def chargeOn (others : List SimNode) (n : SimNode) (alpha : ℝ) (rng : ℕ) :
    ℕ × ℝ × ℝ :=
  others.foldl
    (fun acc o =>
      if o.id = n.id then acc
      else
        let dx0 := n.x - o.x
        let dy0 := n.y - o.y
        let j := jiggle acc.1
        let dx := if dx0 = 0 ∧ dy0 = 0 then j.2 else dx0
        let dy := if dx0 = 0 ∧ dy0 = 0 then j.2 else dy0
        let rng' := if dx0 = 0 ∧ dy0 = 0 then j.1 else acc.1
        let dist := hypot dx dy
        if dist > 920 ∨ dist = 0 then (rng', acc.2.1, acc.2.2)
        else
          (rng', acc.2.1 + dx / dist * (220 * alpha / dist),
            acc.2.2 + dy / dist * (220 * alpha / dist)))
    (rng, 0, 0)

/-- Link rest length from `computeForcePositions`:
`depthDelta > 0 ? 132 + (depthDelta - 1) * 32 : 112`. -/
noncomputable def linkDistance (depthByNodeId : List (String × ℕ)) (e : GraphEdgeEntity) : ℝ :=
  let sd := (alFind depthByNodeId e.source).getD 0
  let td := (alFind depthByNodeId e.target).getD 0
  let depthDelta := max sd td - min sd td
  if depthDelta > 0 then 132 + ((depthDelta : ℝ) - 1) * 32 else 112

/-- Link stiffness from `computeForcePositions`:
`0.28` for same-depth endpoints, `0.68` otherwise. -/
noncomputable def linkStrength (depthByNodeId : List (String × ℕ)) (e : GraphEdgeEntity) : ℝ :=
  let sd := (alFind depthByNodeId e.source).getD 0
  let td := (alFind depthByNodeId e.target).getD 0
  if sd = td then 0.28 else 0.68

/-- Modelled from the spec: one link spring (force (e)) pulling both ends
toward the rest length, with seeded jitter on coincident endpoints. -/
noncomputable def linkStepOne (depthByNodeId : List (String × ℕ)) (alpha : ℝ)
    (e : GraphEdgeEntity) (st : SimState) : SimState :=
  let find := fun (idStr : String) => st.nodes.find? (fun n => n.id = idStr)
  match find e.source, find e.target with
  | some s, some t =>
      let dx0 := t.x - s.x
      let dy0 := t.y - s.y
      let j := jiggle st.rng
      let dx := if dx0 = 0 ∧ dy0 = 0 then j.2 else dx0
      let dy := if dx0 = 0 ∧ dy0 = 0 then j.2 else dy0
      let rng' := if dx0 = 0 ∧ dy0 = 0 then j.1 else st.rng
      let dist := hypot dx dy
      if dist = 0 then { st with rng := rng' }
      else
        let l := (dist - linkDistance depthByNodeId e) / dist *
          alpha * linkStrength depthByNodeId e
        let nodes := st.nodes.map (fun n =>
          if n.id = t.id then { n with vx := n.vx - dx * l / 2, vy := n.vy - dy * l / 2 }
          else if n.id = s.id then { n with vx := n.vx + dx * l / 2, vy := n.vy + dy * l / 2 }
          else n)
        { st with nodes := nodes, rng := rng' }
  | _, _ => st

/-- Modelled from the spec: one pairwise collision pass (force (f)) keyed to
footprint radius expanded by child count, pushing overlapping pairs apart. -/
noncomputable def collideOn (others : List SimNode) (n : SimNode) (rng : ℕ) : ℕ × ℝ × ℝ :=
  others.foldl
    (fun acc o =>
      if o.id = n.id then acc
      else
        let ri := n.radius + min 34 ((n.childCount : ℝ) * 2.2)
        let rj := o.radius + min 34 ((o.childCount : ℝ) * 2.2)
        let dx0 := n.x - o.x
        let dy0 := n.y - o.y
        let j := jiggle acc.1
        let dx := if dx0 = 0 ∧ dy0 = 0 then j.2 else dx0
        let dy := if dx0 = 0 ∧ dy0 = 0 then j.2 else dy0
        let rng' := if dx0 = 0 ∧ dy0 = 0 then j.1 else acc.1
        let dist := hypot dx dy
        if dist = 0 ∨ dist ≥ ri + rj then (rng', acc.2.1, acc.2.2)
        else
          let push := (ri + rj - dist) / dist / 2
          (rng', acc.2.1 + dx * push, acc.2.2 + dy * push))
    (rng, 0, 0)

/-- Modelled from the spec: one simulation tick. Alpha decays toward 0 with
`alphaDecay = 0.055`; forces (a) weak centering (0.08), (b) capped repulsion,
(c) per-axis spring to the seeded target (1 for the pinned root, 0.3
otherwise), (d) radial ring spring (1 for root, 0.86 otherwise), (e) link
springs, (f) collision avoidance are combined additively into velocities;
velocities decay by `velocityDecay = 0.34` and integrate into positions; the
pinned root is excluded from all positional forces. -/
noncomputable def simTick (depthByNodeId : List (String × ℕ))
    (ringRadiusByDepth : List (ℕ × ℝ)) (edges : List GraphEdgeEntity)
    (st : SimState) : SimState :=
  let centerX : ℝ := (CANVAS_WIDTH : ℝ) / 2
  let centerY : ℝ := (CANVAS_HEIGHT : ℝ) / 2
  let alpha := st.alpha + (0 - st.alpha) * 0.055
  -- per-node forces: centering, repulsion, target springs, radial spring, collision
  let afterNodes :=
    st.nodes.foldl
      (fun (acc : List SimNode × ℕ) n =>
        let charge := chargeOn st.nodes n alpha acc.2
        let coll := collideOn st.nodes n charge.1
        let ringStrength : ℝ := if n.depth = 0 then 1 else 0.3
        let radialStrength : ℝ := if n.depth = 0 then 1 else 0.86
        let ringR : ℝ := if n.depth = 0 then 0 else (nalFind ringRadiusByDepth n.depth).getD 0
        let rx := n.x - centerX
        let ry := n.y - centerY
        let rdist := hypot rx ry
        let radialK := if rdist = 0 then 0 else (ringR - rdist) / rdist * alpha * radialStrength
        let vx := n.vx
          + (centerX - n.x) * 0.08 * alpha
          + charge.2.1
          + (n.targetX - n.x) * ringStrength * alpha
          + rx * radialK
          + coll.2.1
        let vy := n.vy
          + (centerY - n.y) * 0.08 * alpha
          + charge.2.2
          + (n.targetY - n.y) * ringStrength * alpha
          + ry * radialK
          + coll.2.2
        (acc.1 ++ [{ n with vx := vx, vy := vy }], coll.1))
      ([], st.rng)
  let st1 : SimState := { nodes := afterNodes.1, alpha := alpha, rng := afterNodes.2 }
  -- link springs
  let st2 := edges.foldl (fun s e => linkStepOne depthByNodeId alpha e s) st1
  -- integrate with velocity decay; the pinned root stays at its fixed position
  let nodes := st2.nodes.map (fun n =>
    if n.pinned then { n with vx := 0, vy := 0, x := centerX, y := centerY }
    else
      let vx := n.vx * (1 - 0.34)
      let vy := n.vy * (1 - 0.34)
      { n with vx := vx, vy := vy, x := n.x + vx, y := n.y + vy })
  { st2 with nodes := nodes }

/-- The comparator of `orderedNodeIds` in `computeForcePositions`: by depth,
then by label. -/
def depthLabelLt (depthByNodeId : List (String × ℕ))
    (nodesById : List (String × GraphNodeEntity)) (a b : String) : Bool :=
  let da := (alFind depthByNodeId a).getD 0
  let db := (alFind depthByNodeId b).getD 0
  if da ≠ db then decide (da < db) else labelLt nodesById a b

def idxOf : List String → String → Option ℕ
  | [], _ => none
  | x :: xs, a => if x = a then some 0 else (idxOf xs a).map (· + 1)

/-- Group the ordered node ids by their depth (the `nodesAtDepth` record). -/
def nodesAtDepth (orderedNodeIds : List String) (depthByNodeId : List (String × ℕ)) :
    List (ℕ × List String) :=
  orderedNodeIds.foldl
    (fun acc nodeId =>
      let depth := (alFind depthByNodeId nodeId).getD 0
      (nalSet acc depth ((nalFind acc depth).getD [] ++ [nodeId])) )
    []

/-- `computeInitialAngle` from `src/lib/layoutEngine.ts`. -/
noncomputable def computeInitialAngleReal (index size : ℕ) : ℝ :=
  if size = 0 then -(Real.pi / 2)
  else -(Real.pi / 2) + (Real.pi * 2 * (index : ℝ)) / (size : ℝ)

/-- The force-node construction of `computeForcePositions`: seeded at the
target position `center + ring(depth) * (cos θ, sin θ)`, with the root
pinned at the canvas center. -/
noncomputable def buildForceNodes (p : ForcePositionInput) : List SimNode :=
  let centerX : ℝ := (CANVAS_WIDTH : ℝ) / 2
  let centerY : ℝ := (CANVAS_HEIGHT : ℝ) / 2
  let orderedNodeIds := sortByLt (depthLabelLt p.depthByNodeId p.nodesById) p.visibleNodeIds
  let targetAngleById := buildTargetAngleById p.rootNodeId p.childIdsByParent
  let ringRadiusByDepth := buildDepthRingRadius orderedNodeIds p.depthByNodeId p.nodesById
  let grouped := nodesAtDepth orderedNodeIds p.depthByNodeId
  let base := orderedNodeIds.foldl
    (fun acc nodeId =>
      match alFind p.nodesById nodeId with
      | none => acc
      | some node =>
          let depth := (alFind p.depthByNodeId nodeId).getD 0
          let r := sizeRadius node depth
          let childCount := (alGetList p.childIdsByParent nodeId).length
          let depthNodes := (nalFind grouped depth).getD []
          let depthIndex := (idxOf depthNodes nodeId).getD 0
          let depthBandRadius := (nalFind ringRadiusByDepth depth).getD 0
          let angle := match alFind targetAngleById nodeId with
            | some a => a
            | none => computeInitialAngleReal depthIndex depthNodes.length
          let targetX := centerX + Real.cos angle * depthBandRadius
          let targetY := centerY + Real.sin angle * depthBandRadius
          acc ++ [{ id := nodeId, depth := depth, radius := r + 1,
                    childCount := childCount, targetX := targetX, targetY := targetY,
                    x := targetX, y := targetY, vx := 0, vy := 0, pinned := false }])
    []
  base.map (fun n =>
    if n.id = p.rootNodeId then
      { n with pinned := true, x := centerX, y := centerY }
    else n)

/-- The fixed iteration budget of `computeForcePositions`:
`Math.min(240, Math.max(120, forceNodes.length * 6))`. -/
def simulationTicks (nodeCount : ℕ) : ℕ := min 240 (max 120 (nodeCount * 6))

noncomputable def numForceNodes : ForcePositionInput → ℕ :=
  fun p => (buildForceNodes p).length

/-- The initial simulation state: seeded nodes, `alpha = 1`, and the random
source installed by `.randomSource(createDeterministicRandom())` — the
linear congruential generator with seed 137. No ambient randomness enters
the state. -/
noncomputable def initialSimState (p : ForcePositionInput) : SimState :=
  { nodes := buildForceNodes p, alpha := 1, rng := createDeterministicRandomSeed }

/-- `computeForcePositions` from `src/lib/layoutEngine.ts`: run exactly
`simulationTicks` ticks of the (spec-modelled) engine and read back the
node positions. -/
noncomputable def computeForcePositions (p : ForcePositionInput) :
    List (String × (ℝ × ℝ)) :=
  let ringRadiusByDepth := buildDepthRingRadius
    (sortByLt (depthLabelLt p.depthByNodeId p.nodesById) p.visibleNodeIds)
    p.depthByNodeId p.nodesById
  let final := (simTick p.depthByNodeId ringRadiusByDepth p.edges)^[simulationTicks (numForceNodes p)]
    (initialSimState p)
  final.nodes.map (fun n => (n.id, (n.x, n.y)))

/-! ## `computeLayoutFrame` -/

structure PositionedNode where
  id : String
  label : String
  depth : ℕ
  x : ℝ
  y : ℝ

structure LayoutFrame where
  nodes : List PositionedNode
  edges : List GraphEdgeEntity

noncomputable def insertPN (x : PositionedNode) : List PositionedNode → List PositionedNode
  | [] => [x]
  | y :: ys =>
      if y.depth < x.depth ∨ (y.depth = x.depth ∧ strLt y.label x.label) then
        y :: insertPN x ys
      else x :: y :: ys

noncomputable def insertionSortPN : List PositionedNode → List PositionedNode
  | [] => []
  | x :: xs => insertPN x (insertionSortPN xs)

/-- `depthSort` from `src/lib/layoutEngine.ts`. -/
noncomputable def sortByDepthLabel (nodes : List PositionedNode) : List PositionedNode :=
  insertionSortPN nodes

/-- `computeLayoutFrame` from `src/lib/layoutEngine.ts`: empty frame when the
topology is null, otherwise positions from the force pass overridden by
manual positions. (The final depth sort is kept; label ties keep order.) -/
noncomputable def computeLayoutFrame (input : LayoutInput)
    (manualPositions : List (String × (ℝ × ℝ))) : LayoutFrame :=
  match computeLayoutTopology input with
  | none => { nodes := [], edges := [] }
  | some topology =>
      let positionedById := computeForcePositions
        { visibleNodeIds := topology.visibleNodeIds
          depthByNodeId := topology.depthByNodeId
          nodesById := input.nodesById
          childIdsByParent := topology.childIdsByParent
          edges := topology.visibleEdges
          rootNodeId := topology.rootNodeId }
      let centerX : ℝ := (CANVAS_WIDTH : ℝ) / 2
      let centerY : ℝ := (CANVAS_HEIGHT : ℝ) / 2
      let positionedNodes := topology.visibleNodeIds.foldl
        (fun acc idKey =>
          match alFind input.nodesById idKey with
          | none => acc
          | some node =>
              let pos := alFind positionedById idKey
              let manual := alFind manualPositions idKey
              acc ++ [{ id := node.id, label := node.label,
                        depth := (alFind topology.depthByNodeId idKey).getD 0,
                        x := (manual.map (·.1)).getD ((pos.map (·.1)).getD centerX),
                        y := (manual.map (·.2)).getD ((pos.map (·.2)).getD centerY) }])
        []
      { nodes := sortByDepthLabel positionedNodes, edges := topology.visibleEdges }

/-! ## Edge Geometry (`pointOnPerimeter`, `src/lib/graphVisuals.ts`) -/

structure Pt where
  x : ℝ
  y : ℝ

structure AnchorPoint where
  x : ℝ
  y : ℝ
  nx : ℝ
  ny : ℝ

/-- `pointOnPerimeter` from `src/lib/graphVisuals.ts`: the boundary anchor
used for every visible edge endpoint (`EdgeCanvas` calls it once per
endpoint, aiming at the other endpoint center). -/
noncomputable def pointOnPerimeter (center toward : Pt) (halfWidth halfHeight : ℝ) :
    AnchorPoint :=
  let dx := toward.x - center.x
  let dy := toward.y - center.y
  if |dx| < 0.001 ∧ |dy| < 0.001 then
    { x := center.x + halfWidth, y := center.y, nx := 1, ny := 0 }
  else
    let safeHalfWidth := max halfWidth 1
    let safeHalfHeight := max halfHeight 1
    let norm := hypot dx dy
    let ux := dx / norm
    let uy := dy / norm
    let denominator := Real.sqrt
      (ux ^ 2 / safeHalfWidth ^ 2 + uy ^ 2 / safeHalfHeight ^ 2)
    let distanceToPerimeter := 1 / max denominator 1e-6
    let localX := ux * distanceToPerimeter
    let localY := uy * distanceToPerimeter
    let normalX := localX / safeHalfWidth ^ 2
    let normalY := localY / safeHalfHeight ^ 2
    let normalLength := hypot normalX normalY
    { x := center.x + localX
      y := center.y + localY
      nx := if normalLength > 1e-6 then normalX / normalLength else ux
      ny := if normalLength > 1e-6 then normalY / normalLength else uy }

/-- Modelled from the claim text of C1: a point lies on the perimeter of the
axis-aligned rectangle with the given center and half-extents. -/
def onRectanglePerimeter (center : Pt) (halfWidth halfHeight : ℝ) (p : Pt) : Prop :=
  (|p.x - center.x| = halfWidth ∧ |p.y - center.y| ≤ halfHeight) ∨
  (|p.y - center.y| = halfHeight ∧ |p.x - center.x| ≤ halfWidth)

/-- The curve the code actually clips to: the ellipse inscribed in the
(guarded) footprint rectangle, with semi-axes `max(halfWidth, 1)` and
`max(halfHeight, 1)`. -/
def onEllipsePerimeter (center : Pt) (a b : ℝ) (p : Pt) : Prop :=
  (p.x - center.x) ^ 2 / a ^ 2 + (p.y - center.y) ^ 2 / b ^ 2 = 1

/-! ## Drag Propagator (`collectDragPropagationUpdates`, `src/App.tsx`) -/

structure RenderNode where
  id : String
  depth : ℤ
  visualKind : VisualNodeKind

/-- The store fields read by `collectDragPropagationUpdates`. -/
structure DragStore where
  viewportScale : ℝ
  connectionDepth : ℤ
  adjacencyByNode : List (String × List String)

structure DragParams where
  nodeId : String
  deltaX : ℝ
  deltaY : ℝ
  sourcePosition : Pt
  basePositionsById : List (String × Pt)

/-- The per-hop BFS context fixed for a whole propagation pass. -/
structure DragCtx where
  sourceDepth : ℤ
  maxCanvasDistancePx : ℝ
  viewportScale : ℝ
  depthById : List (String × ℤ)
  deltaX : ℝ
  deltaY : ℝ
  sourcePosition : Pt
  basePositionsById : List (String × Pt)

structure HopEntry where
  id : String
  transmission : ℝ
  depth : ℤ

structure HopState where
  updates : List (String × Pt)
  queue : List HopEntry
  visited : List String

/-- The fixed minimum influence threshold `minInfluence` in
`collectDragPropagationUpdates`. -/
noncomputable def minInfluence : ℝ := 0.004

/-- The body of the `neighbors.forEach` in `collectDragPropagationUpdates`:
visit one neighbor of the current hop node — mark visited, drop it if it has
no base position or is beyond the canvas-distance budget, compute the
influence `min(1, falloff² × transmission × depthUniformBoost ×
directionBias)`, skip entirely below the minimum threshold, otherwise record
`base + delta × influence × smoothing` and enqueue the neighbor. -/
noncomputable def processNeighbor (ctx : DragCtx) (current : HopEntry)
    (st : HopState) (neighborId : String) : HopState :=
  if neighborId ∈ st.visited then st
  else
    let visited := neighborId :: st.visited
    match alFind ctx.basePositionsById neighborId with
    | none => { st with visited := visited }
    | some neighborPosition =>
        let neighborDepth := (alFind ctx.depthById neighborId).getD current.depth
        let depthDeltaFromSource := max 0 (neighborDepth - ctx.sourceDepth)
        let isDeeperThanCurrent := neighborDepth > current.depth
        let isShallowerThanCurrent := neighborDepth < current.depth
        let distX := neighborPosition.x - ctx.sourcePosition.x
        let distY := neighborPosition.y - ctx.sourcePosition.y
        let worldDistance := hypot distX distY
        let canvasDistance := worldDistance * ctx.viewportScale
        if canvasDistance > ctx.maxCanvasDistancePx then { st with visited := visited }
        else
          let normalizedDistance := min 1 (max 0 (canvasDistance / ctx.maxCanvasDistancePx))
          let squareFalloff := (1 - normalizedDistance) ^ 2
          let depthUniformBoost := 1 + min 0.55 ((depthDeltaFromSource : ℝ) * 0.14)
          let directionBias : ℝ :=
            if isDeeperThanCurrent then 1.12
            else if isShallowerThanCurrent then 0.82 else 1
          let influence := min 1
            (1 * squareFalloff * current.transmission * depthUniformBoost * directionBias)
          if influence < minInfluence then { st with visited := visited }
          else
            let smoothFactor := min 0.99 (0.96 + (depthDeltaFromSource : ℝ) * 0.01)
            let moveX := ctx.deltaX * influence * smoothFactor
            let moveY := ctx.deltaY * influence * smoothFactor
            { updates := alSet st.updates neighborId
                ⟨neighborPosition.x + moveX, neighborPosition.y + moveY⟩
              queue := st.queue ++ [⟨neighborId,
                current.transmission * (if isShallowerThanCurrent then 0.86 else 0.95),
                neighborDepth⟩]
              visited := visited }

/-- The `while (queue.length > 0)` loop of `collectDragPropagationUpdates`. -/
noncomputable def dragLoop (ctx : DragCtx) (adjacency : List (String × List String)) :
    ℕ → HopState → HopState
  | 0, st => st
  | fuel + 1, st =>
      match st.queue with
      | [] => st
      | current :: rest =>
          dragLoop ctx adjacency fuel
            ((alGetList adjacency current.id).foldl (processNeighbor ctx current)
              { st with queue := rest })

/-- Fuel bound for the drag BFS: every enqueue marks a fresh visited node,
so the queue receives at most one entry per adjacency occurrence plus the
initial entry. -/
def dragFuel (adjacency : List (String × List String)) : ℕ :=
  1 + (adjacency.map (·.2.length)).sum

/-- `collectDragPropagationUpdates` from `src/App.tsx`: compute the source
footprint and the zoom- and depth-aware canvas-distance budget, then BFS
over the full discovered adjacency with decaying transmission. -/
noncomputable def collectDragPropagationUpdates (renderNodes : List RenderNode)
    (store : DragStore) (depthById : List (String × ℤ)) (p : DragParams) :
    List (String × Pt) :=
  match renderNodes.find? (fun n => n.id = p.nodeId) with
  | none => []
  | some sourceNode =>
      let sourceScale := getDepthVisualScale sourceNode.depth
      let sourceCanvasWidth :=
        NODE_WIDTH_BY_KIND sourceNode.visualKind * sourceScale * store.viewportScale
      let sourceDepth := (alFind depthById p.nodeId).getD sourceNode.depth
      let maxCanvasDistancePx := max 72
        (sourceCanvasWidth * (2.4 + (max 0 ((store.connectionDepth : ℝ) - 1)) * 0.55))
      let ctx : DragCtx :=
        { sourceDepth := sourceDepth
          maxCanvasDistancePx := maxCanvasDistancePx
          viewportScale := store.viewportScale
          depthById := depthById
          deltaX := p.deltaX
          deltaY := p.deltaY
          sourcePosition := p.sourcePosition
          basePositionsById := p.basePositionsById }
      (dragLoop ctx store.adjacencyByNode (dragFuel store.adjacencyByNode)
        { updates := []
          queue := [⟨p.nodeId, 1, sourceDepth⟩]
          visited := [p.nodeId] }).updates

/-- Modelled from the claim text of C3: the influence formula as the claim
states it, `(1 - normalizedCanvasDistance)² × transmission ×
depthUniformityBoost × directionalBias` — without the cap at 1 that the
implementation applies. -/
noncomputable def specInfluence (normalizedDistance transmission : ℝ)
    (depthDeltaFromSource : ℤ) (isDeeper isShallower : Prop)
    [Decidable isDeeper] [Decidable isShallower] : ℝ :=
  (1 - normalizedDistance) ^ 2 * transmission *
    (1 + min 0.55 ((depthDeltaFromSource : ℝ) * 0.14)) *
    (if isDeeper then 1.12 else if isShallower then 0.82 else 1)

/-- The normalized canvas distance of a neighbor at base position `pos`
from the drag source, as `processNeighbor` computes it. -/
noncomputable def dragNormalizedDistance (ctx : DragCtx) (pos : Pt) : ℝ :=
  min 1 (max 0 (hypot (pos.x - ctx.sourcePosition.x) (pos.y - ctx.sourcePosition.y) *
    ctx.viewportScale / ctx.maxCanvasDistancePx))

/-- The influence `processNeighbor` applies: the claim formula
(`specInfluence`) capped at 1. -/
noncomputable def dragInfluenceAt (ctx : DragCtx) (current : HopEntry)
    (nid : String) (pos : Pt) : ℝ :=
  min 1 (specInfluence (dragNormalizedDistance ctx pos) current.transmission
    (max 0 (((alFind ctx.depthById nid).getD current.depth) - ctx.sourceDepth))
    (((alFind ctx.depthById nid).getD current.depth) > current.depth)
    (((alFind ctx.depthById nid).getD current.depth) < current.depth))

/-- The smoothing factor of `processNeighbor`:
`min(0.99, 0.96 + depthDeltaFromSource * 0.01)`. -/
noncomputable def dragSmoothingAt (ctx : DragCtx) (current : HopEntry) (nid : String) : ℝ :=
  min 0.99 (0.96 +
    ((max 0 (((alFind ctx.depthById nid).getD current.depth) - ctx.sourceDepth) : ℤ) : ℝ) * 0.01)

/-- The per-axis displacement bound of C10 over an update map: every entry
sits within `0.99 * |delta|` of its base position on each axis. -/
def dragBound (basePositionsById : List (String × Pt)) (deltaX deltaY : ℝ)
    (upd : List (String × Pt)) : Prop :=
  ∀ k pt, alFind upd k = some pt →
    ∃ base, alFind basePositionsById k = some base ∧
      |pt.x - base.x| ≤ 0.99 * |deltaX| ∧ |pt.y - base.y| ≤ 0.99 * |deltaY|

/-- All queued hop entries carry a non-negative transmission factor. -/
def dragQueueNonneg (q : List HopEntry) : Prop := ∀ e ∈ q, 0 ≤ e.transmission

/-- A standalone hop context used to instantiate the per-neighbor theorems. -/
noncomputable def witnessCtx : DragCtx :=
  { sourceDepth := 0, maxCanvasDistancePx := 100, viewportScale := 1,
    depthById := [("N", 0)], deltaX := 1, deltaY := 0,
    sourcePosition := ⟨0, 0⟩, basePositionsById := [("N", ⟨0, 0⟩)] }

/-! ## Invariant and well-formedness definitions used by the theorems -/

/-- First queue entry with the given id (the entry the BFS will dequeue
first for that id). -/
def qfind : List QueueEntry → String → Option QueueEntry
  | [], _ => none
  | e :: rest, idKey => if e.id = idKey then some e else qfind rest idKey

/-- The node map keys each record by its own id, as the store maintains
(`nodesById[child.id] = { id: child.id, ... }`). -/
def WfNodeMap (input : LayoutInput) : Prop :=
  ∀ k n, alFind input.nodesById k = some n → n.id = k

/-- The guard condition of `computeLayoutTopology`: a null root id, an
empty-string root id (JavaScript falsiness), or a root absent from the
node map. -/
def rootMissing (input : LayoutInput) : Prop :=
  input.rootNodeId = none ∨ input.rootNodeId = some "" ∨
    (∃ r, input.rootNodeId = some r ∧ alFind input.nodesById r = none)

/-- The BFS loop invariant of `computeLayoutTopology`. `parentDepth` is the
heart: a recorded parent always has a depth, and the child either is visible
with depth exactly one greater, or (when its node exists) still waits in the
queue with its first entry carrying that depth. -/
structure BfsInv (input : LayoutInput) (root : String) (s : BfsState) : Prop where
  parentDepth : ∀ c p, alFind s.parentByNodeId c = some (some p) →
    ∃ dp, alFind s.depthByNodeId p = some dp ∧
      ((c ∈ s.visible ∧ alFind s.depthByNodeId c = some (dp + 1)) ∨
       (c ∉ s.visible ∧ ((alFind input.nodesById c).isSome →
         qfind s.queue c = some ⟨c, dp + 1⟩)))
  queueIds : ∀ e ∈ s.queue, e.id = root ∨ (alFind s.parentByNodeId e.id).isSome
  rootDepth : root ∈ s.visible → alFind s.depthByNodeId root = some 0
  rootFirst : root ∈ s.visible ∨
    (s.visible = [] ∧ s.depthByNodeId = [] ∧ s.parentByNodeId = [] ∧
      s.queue = [⟨root, 0⟩])
  visHasParent : ∀ k, k ∈ s.visible → (alFind s.parentByNodeId k).isSome
  depthDomVisible : ∀ k, (alFind s.depthByNodeId k).isSome → k ∈ s.visible

/-- Acyclicity of a child map, witnessed by a rank function that strictly
decreases from parent to child (the ordinary expansion-tree case). -/
def rankDec (cbp : List (String × List String)) (μ : String → ℕ) : Prop :=
  ∀ p c, c ∈ alGetList cbp p → μ c < μ p

/-- Cache invariant: every cached weight agrees with the path-sensitive
specification weight started on a fresh path. -/
def cacheSpecOK (cbp : List (String × List String)) (μ : String → ℕ)
    (cache : List (String × ℕ)) : Prop :=
  ∀ k w, alFind cache k = some w → w = specWeight cbp (μ k + 1) k []

/-- Cache invariant: every cached weight is at least 1. -/
def cacheGE (cache : List (String × ℕ)) : Prop :=
  ∀ k w, alFind cache k = some w → 1 ≤ w

/-- A strictly decreasing rank for the acyclic child map used as witness
instance. -/
def acyclicRank (s : String) : ℕ :=
  if s = "r" then 2 else if s = "a" then 1 else 0

/-! ## Concrete instances referenced by counterexamples and witnesses -/

/-- A node record whose id and label coincide. -/
def mkNode (i : String) (exp : Bool) : String × GraphNodeEntity :=
  (i, ⟨i, i, VisualNodeKind.moduleKind, exp⟩)

/-- Labels `B01` … `B30` (resp. `C01` …) for the C2 scenario children. -/
def childLabels (p : String) : List String :=
  (List.range 30).map (fun i => p ++ (if i + 1 < 10 then "0" else "") ++ toString (i + 1))

def scenarioNodes : List (String × GraphNodeEntity) :=
  [mkNode "A" true, mkNode "B" true, mkNode "C" true] ++
  ((childLabels "B").map (fun c => mkNode c false)) ++
  ((childLabels "C").map (fun c => mkNode c false))

def mkEdge (s t : String) : GraphEdgeEntity := ⟨s ++ "-" ++ t, s, t⟩

def scenarioEdges : List GraphEdgeEntity :=
  [mkEdge "A" "B", mkEdge "A" "C"] ++
  ((childLabels "B").map (mkEdge "B")) ++
  ((childLabels "C").map (mkEdge "C"))

/-- The C2 scenario as the store realizes it: parent-child edges exist
(expansion always records an undirected parent-child edge), root `A`
expanded with children `B`, `C`, each expanded with 30 children, depth
limit 2, every page index 0. -/
def scenarioInput : LayoutInput :=
  { rootNodeId := some "A", connectionDepth := 2, nodesById := scenarioNodes,
    edges := scenarioEdges, childIdsByParent := [], siblingPageByParent := [] }

/-- The same scenario with no edge records, so the BFS falls back to the
explicit child lists (whose windows do not contain the parent). -/
def scenarioInputFallback : LayoutInput :=
  { rootNodeId := some "A", connectionDepth := 2, nodesById := scenarioNodes,
    edges := [],
    childIdsByParent :=
      [("A", ["B", "C"]), ("B", childLabels "B"), ("C", childLabels "C")],
    siblingPageByParent := [] }

/-- The expected visible set for the realistic C2 scenario: `A`, `B`, `C`
and the first nineteen children of each — the window of each child also
contains the already-visible parent `A`. -/
def scenarioExpectedVisible : List String :=
  ["A", "B", "C"] ++ (childLabels "B").take 19 ++ (childLabels "C").take 19

/-- The expected visible set in the fallback variant: the full first twenty
children of each, as the original claim stated. -/
def scenarioExpectedVisibleFallback : List String :=
  ["A", "B", "C"] ++ (childLabels "B").take 20 ++ (childLabels "C").take 20

/-- An input whose root id is the empty string yet present in the node map:
the JavaScript guard `!rootNodeId` is true for `""`. -/
def emptyRootInput : LayoutInput :=
  { rootNodeId := some "", connectionDepth := 1,
    nodesById := [("", ⟨"", "", VisualNodeKind.moduleKind, false⟩)],
    edges := [], childIdsByParent := [], siblingPageByParent := [] }

/-- The cyclic child map refuting the C5 weight recursion: children
`n → [x, y]`, `x → [y]`, `y → [x]`. -/
def cyclicChildMap : List (String × List String) :=
  [("n", ["x", "y"]), ("x", ["y"]), ("y", ["x"])]

/-- A small acyclic child map used as a witness instance. -/
def acyclicChildMap : List (String × List String) :=
  [("r", ["a", "b"]), ("a", ["c"])]

/-- Drag scenario: two adjacent nodes `S` and `N` at the same world
position (so the canvas distance is zero and the neighbor is well inside
the budget). -/
def dragRenderNodes : List RenderNode :=
  [⟨"S", 0, VisualNodeKind.moduleKind⟩, ⟨"N", 0, VisualNodeKind.moduleKind⟩]

def dragStore : DragStore :=
  { viewportScale := 1, connectionDepth := 2,
    adjacencyByNode := [("S", ["N"]), ("N", ["S"])] }

/-- Depth map for the C7 drag scenario: both nodes at depth 0. -/
def dragDepthSame : List (String × ℤ) := [("S", 0), ("N", 0)]

/-- Depth map for the C3 drag scenario: the neighbor four levels deeper,
so the uncapped influence product exceeds 1. -/
def dragDepthJump : List (String × ℤ) := [("S", 0), ("N", 4)]

def dragBasePositions : List (String × Pt) := [("S", ⟨0, 0⟩), ("N", ⟨0, 0⟩)]

/-- Drag parameters with an arbitrary delta. -/
def dragParamsAt (dx dy : ℝ) : DragParams :=
  { nodeId := "S", deltaX := dx, deltaY := dy,
    sourcePosition := ⟨0, 0⟩, basePositionsById := dragBasePositions }

/-- An arbitrary concrete force input (used to instantiate universally
quantified force-simulator theorems). -/
def sampleForceInput : ForcePositionInput :=
  { visibleNodeIds := ["A"], depthByNodeId := [("A", 0)],
    nodesById := [mkNode "A" true], childIdsByParent := [], edges := [],
    rootNodeId := "A" }

/-- A minimal layout input for the BFS invariant witness: a root `r` and a
single child `c` joined by one edge. -/
def c6Input : LayoutInput :=
  { rootNodeId := some "r"
    connectionDepth := 1
    nodesById := [("r", ⟨"r", "r", VisualNodeKind.moduleKind, true⟩),
                  ("c", ⟨"c", "c", VisualNodeKind.moduleKind, true⟩)]
    edges := [⟨"e1", "r", "c"⟩]
    childIdsByParent := []
    siblingPageByParent := [] }

/-- The topology the BFS computes on `c6Input`. -/
def c6Topo : LayoutTopology :=
  { visibleNodeIds := ["r", "c"]
    depthByNodeId := [("r", 0), ("c", 1)]
    childIdsByParent := []
    visibleEdges := [⟨"e1", "r", "c"⟩]
    rootNodeId := "r" }

/-! ## Association list lemmas -/

theorem alFind_alSet {α : Type} (m : List (String × α)) (k key : String) (v : α) :
    alFind (alSet m k v) key = if k = key then some v else alFind m key := by
  induction m with
  | nil => simp [alSet, alFind]
  | cons hd tl ih =>
      obtain ⟨k', v'⟩ := hd
      by_cases h : k' = k
      · subst h
        by_cases h2 : k' = key
        · simp [alSet, alFind, h2]
        · simp [alSet, alFind, h2]
      · simp only [alSet, if_neg h, alFind]
        by_cases h2 : k' = key
        · subst h2
          have : ¬ k = k' := fun hk => h hk.symm
          simp [alFind, this]
        · simp [alFind, h2, ih]

theorem alFind_append {α : Type} (m m' : List (String × α)) (key : String) :
    alFind (m ++ m') key =
      match alFind m key with
      | some v => some v
      | none => alFind m' key := by
  induction m with
  | nil => simp [alFind]
  | cons hd tl ih =>
      obtain ⟨k', v'⟩ := hd
      by_cases h : k' = key
      · simp [alFind, h]
      · simp [alFind, h, ih]

theorem alFind_alSetIfAbsent {α : Type} (m : List (String × α)) (k key : String) (v : α) :
    alFind (alSetIfAbsent m k v) key =
      match alFind m k with
      | some _ => alFind m key
      | none =>
          match alFind m key with
          | some w => some w
          | none => if k = key then some v else none := by
  unfold alSetIfAbsent
  cases h : alFind m k with
  | some w => rfl
  | none =>
      rw [alFind_append]
      cases hk : alFind m key with
      | some w => rfl
      | none => simp [alFind]

theorem qfind_append (q q' : List QueueEntry) (key : String) :
    qfind (q ++ q') key =
      match qfind q key with
      | some e => some e
      | none => qfind q' key := by
  induction q with
  | nil => simp [qfind]
  | cons hd tl ih =>
      by_cases h : hd.id = key
      · simp [qfind, h]
      · simp [qfind, h, ih]

/-! ## C9 — null topology exactly on a missing root -/

/-- C9 counterexample: the claim says `computeLayoutTopology` returns null
exactly when the root id is null or absent from the node map, but an
empty-string root id that is present in the node map also yields null
(JavaScript `!rootNodeId` is true for `""`). -/
theorem computeLayoutTopology_emptyRoot_counterexample :
    computeLayoutTopology emptyRootInput = none ∧
    emptyRootInput.rootNodeId = some "" ∧
    (alFind emptyRootInput.nodesById "").isSome = true :=
  ⟨rfl, rfl, rfl⟩

/-- C9 (amended): `computeLayoutTopology` returns null exactly when the root
id is null, the empty string, or absent from the node map; in every such
case `computeLayoutFrame` is the empty frame, so nothing downstream runs. -/
theorem computeLayoutTopology_none_iff_rootMissing (input : LayoutInput)
    (manual : List (String × (ℝ × ℝ))) :
    (computeLayoutTopology input = none ↔ rootMissing input) ∧
    (rootMissing input → computeLayoutFrame input manual = ⟨[], []⟩) := by
  have hiff : computeLayoutTopology input = none ↔ rootMissing input := by
    unfold computeLayoutTopology rootMissing
    cases hr : input.rootNodeId with
    | none => simp
    | some r =>
        by_cases he : r = ""
        · subst he
          simp
        · cases hn : alFind input.nodesById r with
          | none => simp [he, hn]
          | some node => simp [he, hn]
  refine ⟨hiff, fun h => ?_⟩
  have hnone : computeLayoutTopology input = none := hiff.mpr h
  unfold computeLayoutFrame
  rw [hnone]

/-- C9 witness: the amended theorem applied to the concrete empty-string
instance. -/
theorem computeLayoutTopology_none_iff_rootMissing_witness :
    computeLayoutTopology emptyRootInput = none ∧
    computeLayoutFrame emptyRootInput [] = ⟨[], []⟩ := by
  have h := computeLayoutTopology_none_iff_rootMissing emptyRootInput []
  have hm : rootMissing emptyRootInput := Or.inr (Or.inl rfl)
  exact ⟨h.1.mpr hm, h.2 hm⟩

/-! ## C4 — Force Simulator determinism -/

/-- C4: the Force Simulator is deterministic. `computeForcePositions` is a
pure function of its input: the embedding takes no ambient randomness, the
installed random source is the seeded linear congruential generator (seed
137), and its first update from the seed is the fixed value 1241944148, so
two runs on equal inputs agree bit for bit. -/
theorem forceSimulator_deterministic :
    (∀ p q : ForcePositionInput, p = q →
      computeForcePositions p = computeForcePositions q) ∧
    (∀ p : ForcePositionInput, (initialSimState p).rng = createDeterministicRandomSeed) ∧
    createDeterministicRandomSeed = 137 ∧ lcgStep 137 = 1241944148 := by
  refine ⟨fun p q h => by rw [h], fun p => rfl, rfl, by decide⟩

/-- C4 witness: two runs on the same concrete input coincide. -/
theorem forceSimulator_deterministic_witness :
    computeForcePositions sampleForceInput = computeForcePositions sampleForceInput :=
  forceSimulator_deterministic.1 sampleForceInput sampleForceInput rfl

/-! ## C8 — fixed tick budget -/

/-- C8: the simulation always runs exactly
`min(240, max(120, nodeCount * 6))` ticks — the run is literally that many
iterations of the tick function, the budget is between 120 and 240, and it
depends only on the force-node count, never on residual motion. -/
theorem forceSimulator_tick_budget :
    (∀ n : ℕ, simulationTicks n = min 240 (max 120 (n * 6))) ∧
    (∀ p : ForcePositionInput, computeForcePositions p =
      ((simTick p.depthByNodeId
          (buildDepthRingRadius
            (sortByLt (depthLabelLt p.depthByNodeId p.nodesById) p.visibleNodeIds)
            p.depthByNodeId p.nodesById)
          p.edges)^[simulationTicks (numForceNodes p)]
        (initialSimState p)).nodes.map (fun n => (n.id, (n.x, n.y)))) ∧
    (∀ n : ℕ, 120 ≤ simulationTicks n ∧ simulationTicks n ≤ 240) ∧
    (∀ p q : ForcePositionInput, numForceNodes p = numForceNodes q →
      simulationTicks (numForceNodes p) = simulationTicks (numForceNodes q)) := by
  refine ⟨fun n => rfl, fun p => rfl, fun n => ⟨?_, ?_⟩, fun p q h => by rw [h]⟩
  · exact le_min (by norm_num) (le_max_left _ _)
  · exact min_le_left _ _

/-- C8 witness: the budget congruence applied at a concrete input. -/
theorem forceSimulator_tick_budget_witness :
    simulationTicks (numForceNodes sampleForceInput) =
      simulationTicks (numForceNodes sampleForceInput) :=
  forceSimulator_tick_budget.2.2.2 sampleForceInput sampleForceInput rfl

/-! ## C2 — sibling windowing in the BFS -/

theorem enqueue_foldl_queue (pid : String) (d : ℕ) :
    ∀ (neighbors : List String) (st : BfsState),
      (neighbors.foldl (fun st neighborId =>
        { st with
          parentByNodeId := alSetIfAbsent st.parentByNodeId neighborId (some pid)
          queue := st.queue ++ [⟨neighborId, d⟩] }) st).queue =
      st.queue ++ neighbors.map (fun nid => (⟨nid, d⟩ : QueueEntry)) := by
  intro neighbors
  induction neighbors with
  | nil => intro st; simp
  | cons hd tl ih =>
      intro st
      simp only [List.foldl_cons, List.map_cons]
      rw [ih]
      simp

/-- C2 counterexample: in the scenario realized with parent-child edges (as
the store creates them), the BFS window of each expanded child contains the
already-visible parent `A`, so only the first nineteen children of `B`
appear; `B20`, among the first twenty children of `B` by label order that
the claim says are included, is excluded. -/
theorem bfs_window_includes_parent_counterexample :
    (computeLayoutTopology scenarioInput).map (·.visibleNodeIds) =
      some scenarioExpectedVisible ∧
    "B20" ∈ (childLabels "B").take 20 ∧
    "B20" ∉ scenarioExpectedVisible := by
  refine ⟨by rfl, by decide, by decide⟩

/-- C2 (amended): when a visible expanded node below the depth limit is
processed, exactly the window `[page * P, page * P + P)` of its
deduplicated label-sorted neighbor list is enqueued, and nothing else.
The neighbor list includes the already-visible parent when parent-child
edges exist, so in the concrete scenario (root `A`, expanded children `B`
and `C` with 30 children each, depth limit 2, page 0) the topology is
exactly `A`, `B`, `C` and the first nineteen children of each; with no
edge records (explicit child-list fallback) it is the first twenty of
each, as originally claimed. -/
theorem bfs_sibling_windowing :
    (∀ (input : LayoutInput) (adjacency : List (String × List String))
        (current : QueueEntry) (s : BfsState) (node : GraphNodeEntity),
      alFind input.nodesById current.id = some node →
      node.id ∉ s.visible →
      node.expanded = true →
      current.depth < input.connectionDepth →
      (bfsProcess input adjacency current s).queue =
        s.queue ++ (windowedNeighbors input adjacency node.id).map
          (fun nid => (⟨nid, current.depth + 1⟩ : QueueEntry))) ∧
    (∀ (input : LayoutInput) (adjacency : List (String × List String)) (nodeId : String),
      windowedNeighbors input adjacency nodeId =
        ((sortByLt (labelLt input.nodesById)
          (sortByLt strLt (dedupFirst
            (if (alGetList adjacency nodeId).length > 0
             then alGetList adjacency nodeId
             else alGetList input.childIdsByParent nodeId)))).drop
          (((alFind input.siblingPageByParent nodeId).getD 0) * MAX_VISIBLE_SIBLINGS)).take
          MAX_VISIBLE_SIBLINGS) ∧
    (computeLayoutTopology scenarioInput).map (·.visibleNodeIds) =
      some scenarioExpectedVisible ∧
    (computeLayoutTopology scenarioInputFallback).map (·.visibleNodeIds) =
      some scenarioExpectedVisibleFallback := by
  refine ⟨?_, fun input adjacency nodeId => rfl, by rfl, by rfl⟩
  intro input adjacency current s node hfind hnv hexp hdepth
  unfold bfsProcess
  rw [hfind]
  dsimp only
  rw [if_neg hnv]
  have hguard : ¬ (¬ node.expanded = true ∨ current.depth ≥ input.connectionDepth) := by
    push_neg
    exact ⟨hexp, hdepth⟩
  rw [if_neg hguard]
  exact enqueue_foldl_queue node.id (current.depth + 1)
    (windowedNeighbors input adjacency node.id) _

/-- C2 witness: the windowing equation applied to the concrete processing of
the scenario root. -/
theorem bfs_sibling_windowing_witness :
    (bfsProcess scenarioInput (buildAdjacency scenarioInput.edges) ⟨"A", 0⟩
      ⟨[], [], [], []⟩).queue =
      [] ++ (windowedNeighbors scenarioInput (buildAdjacency scenarioInput.edges) "A").map
        (fun nid => (⟨nid, 0 + 1⟩ : QueueEntry)) :=
  bfs_sibling_windowing.1 scenarioInput (buildAdjacency scenarioInput.edges)
    ⟨"A", 0⟩ ⟨[], [], [], []⟩ ⟨"A", "A", VisualNodeKind.moduleKind, true⟩
    rfl (by decide) rfl (by decide)

/-! ## C1 — edge anchors: ellipse, not rectangle -/

/-- C1 counterexample: ray-casting from center `(0,0)` toward `(3,4)` on a
unit-half-extent footprint yields the anchor `(3/5, 4/5)` with normal
`(3/5, 4/5)` — a point strictly inside the rectangle perimeter (it lies on
the inscribed ellipse, here the unit circle), and its normal is not the
axis-aligned normal of any rectangle side. -/
theorem pointOnPerimeter_rectangle_counterexample :
    pointOnPerimeter ⟨0, 0⟩ ⟨3, 4⟩ 1 1 = ⟨3 / 5, 4 / 5, 3 / 5, 4 / 5⟩ ∧
    ¬ onRectanglePerimeter ⟨0, 0⟩ 1 1 ⟨3 / 5, 4 / 5⟩ ∧
    ¬ ((|(3 / 5 : ℝ)| = 1 ∧ (4 / 5 : ℝ) = 0) ∨ ((3 / 5 : ℝ) = 0 ∧ |(4 / 5 : ℝ)| = 1)) := by
  refine ⟨?_, ?_, ?_⟩
  · unfold pointOnPerimeter
    rw [if_neg (by norm_num)]
    have h25 : hypot ((3:ℝ) - 0) ((4:ℝ) - 0) = 5 := by
      unfold hypot
      rw [show ((3:ℝ) - 0) ^ 2 + ((4:ℝ) - 0) ^ 2 = 5 ^ 2 by norm_num]
      exact Real.sqrt_sq (by norm_num)
    dsimp only
    rw [h25]
    have hm : max (1:ℝ) 1 = 1 := max_self 1
    rw [hm]
    rw [show Real.sqrt ((((3:ℝ) - 0) / 5) ^ 2 / 1 ^ 2 + (((4:ℝ) - 0) / 5) ^ 2 / 1 ^ 2) = 1 by
      rw [show (((3:ℝ) - 0) / 5) ^ 2 / 1 ^ 2 + (((4:ℝ) - 0) / 5) ^ 2 / 1 ^ 2 = 1 by norm_num]
      exact Real.sqrt_one]
    rw [show (1:ℝ) ⊔ 1e-6 = 1 from max_eq_left (by norm_num)]
    norm_num
    have hn : hypot ((3:ℝ)/5) ((4:ℝ)/5) = 1 := by
      unfold hypot
      rw [show ((3:ℝ)/5) ^ 2 + ((4:ℝ)/5) ^ 2 = 1 by norm_num]
      exact Real.sqrt_one
    rw [hn]
    norm_num
  · unfold onRectanglePerimeter
    push_neg
    constructor
    · intro h1
      exfalso
      rw [show |(3:ℝ) / 5 - 0| = 3 / 5 by rw [abs_of_nonneg] <;> norm_num] at h1
      norm_num at h1
    · intro h1
      exfalso
      rw [show |(4:ℝ) / 5 - 0| = 4 / 5 by rw [abs_of_nonneg] <;> norm_num] at h1
      norm_num at h1
  · push_neg
    constructor
    · intro h1
      exfalso
      rw [show |(3:ℝ) / 5| = 3 / 5 by rw [abs_of_nonneg]; norm_num] at h1
      norm_num at h1
    · intro h1
      exfalso
      norm_num at h1

/-- C1 (amended): for a non-degenerate ray the anchor lies on the ellipse
inscribed in the (guarded) footprint rectangle — semi-axes
`max(halfWidth, 1)` and `max(halfHeight, 1)` — with the unit outward normal
of that ellipse at the anchor (a positive multiple of the ellipse gradient);
a degenerate ray (both center deltas within 0.001) defaults to the
right-center point with an eastward normal `(1, 0)`. Footprint half-extents
are bounded by 100000, far above every node size in the constants. -/
theorem pointOnPerimeter_ellipse_anchor (center toward : Pt) (hw hh : ℝ)
    (hwle : hw ≤ 100000) (hhle : hh ≤ 100000) :
    (¬ (|toward.x - center.x| < 0.001 ∧ |toward.y - center.y| < 0.001) →
      onEllipsePerimeter center (max hw 1) (max hh 1)
        ⟨(pointOnPerimeter center toward hw hh).x, (pointOnPerimeter center toward hw hh).y⟩ ∧
      (pointOnPerimeter center toward hw hh).nx ^ 2 +
        (pointOnPerimeter center toward hw hh).ny ^ 2 = 1 ∧
      ∃ c : ℝ, 0 < c ∧
        (pointOnPerimeter center toward hw hh).nx =
          c * (((pointOnPerimeter center toward hw hh).x - center.x) / (max hw 1) ^ 2) ∧
        (pointOnPerimeter center toward hw hh).ny =
          c * (((pointOnPerimeter center toward hw hh).y - center.y) / (max hh 1) ^ 2)) ∧
    ((|toward.x - center.x| < 0.001 ∧ |toward.y - center.y| < 0.001) →
      pointOnPerimeter center toward hw hh = ⟨center.x + hw, center.y, 1, 0⟩) := by
  constructor
  · intro h
    set dx := toward.x - center.x with hdx
    set dy := toward.y - center.y with hdy
    -- basic positivity
    have hne : dx ≠ 0 ∨ dy ≠ 0 := by
      by_contra hc
      push_neg at hc
      exact h ⟨by rw [hc.1]; norm_num, by rw [hc.2]; norm_num⟩
    have hd2 : 0 < dx ^ 2 + dy ^ 2 := by
      rcases hne with h1 | h1
      · have : 0 < dx ^ 2 := by positivity
        have h2 : (0:ℝ) ≤ dy ^ 2 := sq_nonneg dy
        linarith
      · have : 0 < dy ^ 2 := by positivity
        have h2 : (0:ℝ) ≤ dx ^ 2 := sq_nonneg dx
        linarith
    set norm := hypot dx dy with hnormdef
    have hnorm : 0 < norm := by
      rw [hnormdef]; unfold hypot; exact Real.sqrt_pos.mpr hd2
    have hnormsq : norm ^ 2 = dx ^ 2 + dy ^ 2 := by
      rw [hnormdef]; unfold hypot; exact Real.sq_sqrt hd2.le
    set ux := dx / norm with hux
    set uy := dy / norm with huy
    have hu1 : ux ^ 2 + uy ^ 2 = 1 := by
      rw [hux, huy]
      have : dx ^ 2 / norm ^ 2 + dy ^ 2 / norm ^ 2 = (dx ^ 2 + dy ^ 2) / norm ^ 2 := by ring
      rw [div_pow, div_pow, this, hnormsq, div_self (ne_of_gt hd2)]
    set shw := max hw 1 with hshw
    set shh := max hh 1 with hshh
    have hshw1 : (1:ℝ) ≤ shw := le_max_right hw 1
    have hshh1 : (1:ℝ) ≤ shh := le_max_right hh 1
    have hshwM : shw ≤ 100000 := max_le hwle (by norm_num)
    have hshhM : shh ≤ 100000 := max_le hhle (by norm_num)
    have hshw0 : (0:ℝ) < shw := lt_of_lt_of_le one_pos hshw1
    have hshh0 : (0:ℝ) < shh := lt_of_lt_of_le one_pos hshh1
    set q := ux ^ 2 / shw ^ 2 + uy ^ 2 / shh ^ 2 with hq
    have hqlb : 1 / (100000:ℝ) ^ 2 ≤ q := by
      have h1 : ux ^ 2 / (100000:ℝ) ^ 2 ≤ ux ^ 2 / shw ^ 2 := by
        apply div_le_div_of_nonneg_left (sq_nonneg ux) (by positivity)
        exact pow_le_pow_left₀ hshw0.le hshwM 2
      have h2 : uy ^ 2 / (100000:ℝ) ^ 2 ≤ uy ^ 2 / shh ^ 2 := by
        apply div_le_div_of_nonneg_left (sq_nonneg uy) (by positivity)
        exact pow_le_pow_left₀ hshh0.le hshhM 2
      have h3 : ux ^ 2 / (100000:ℝ) ^ 2 + uy ^ 2 / (100000:ℝ) ^ 2 = 1 / (100000:ℝ) ^ 2 := by
        rw [div_add_div_same, hu1]
      linarith [h1, h2]
    have hq0 : 0 < q := lt_of_lt_of_le (by norm_num) hqlb
    have hsq0 : 0 < Real.sqrt q := Real.sqrt_pos.mpr hq0
    have hsqlb : 1 / (100000:ℝ) ≤ Real.sqrt q := by
      have : Real.sqrt (1 / (100000:ℝ) ^ 2) ≤ Real.sqrt q := Real.sqrt_le_sqrt hqlb
      rwa [show (1:ℝ) / (100000:ℝ) ^ 2 = (1 / 100000) ^ 2 by ring,
        Real.sqrt_sq (by norm_num : (0:ℝ) ≤ 1 / 100000)] at this
    have hsq1e6 : (1e-6:ℝ) ≤ Real.sqrt q := le_trans (by norm_num) hsqlb
    have hmax : max (Real.sqrt q) 1e-6 = Real.sqrt q := max_eq_left hsq1e6
    set dist := 1 / Real.sqrt q with hdist
    set lx := ux * dist with hlx
    set ly := uy * dist with hly
    set nx0 := lx / shw ^ 2 with hnx0
    set ny0 := ly / shh ^ 2 with hny0
    have hdistsq : dist ^ 2 = 1 / q := by
      rw [hdist, div_pow, Real.sq_sqrt hq0.le, one_pow]
    have hell : lx ^ 2 / shw ^ 2 + ly ^ 2 / shh ^ 2 = 1 := by
      have : lx ^ 2 / shw ^ 2 + ly ^ 2 / shh ^ 2 = dist ^ 2 * (ux ^ 2 / shw ^ 2 + uy ^ 2 / shh ^ 2) := by
        rw [hlx, hly]; ring
      rw [this, ← hq, hdistsq, one_div, inv_mul_cancel₀ (ne_of_gt hq0)]
    have hn2lb : 1 / (100000:ℝ) ^ 2 ≤ nx0 ^ 2 + ny0 ^ 2 := by
      have e1 : nx0 ^ 2 = (lx ^ 2 / shw ^ 2) / shw ^ 2 := by rw [hnx0]; ring
      have e2 : ny0 ^ 2 = (ly ^ 2 / shh ^ 2) / shh ^ 2 := by rw [hny0]; ring
      have b1 : (lx ^ 2 / shw ^ 2) / (100000:ℝ) ^ 2 ≤ (lx ^ 2 / shw ^ 2) / shw ^ 2 := by
        apply div_le_div_of_nonneg_left (by positivity) (by positivity)
        exact pow_le_pow_left₀ hshw0.le hshwM 2
      have b2 : (ly ^ 2 / shh ^ 2) / (100000:ℝ) ^ 2 ≤ (ly ^ 2 / shh ^ 2) / shh ^ 2 := by
        apply div_le_div_of_nonneg_left (by positivity) (by positivity)
        exact pow_le_pow_left₀ hshh0.le hshhM 2
      have b3 : (lx ^ 2 / shw ^ 2) / (100000:ℝ) ^ 2 + (ly ^ 2 / shh ^ 2) / (100000:ℝ) ^ 2
          = 1 / (100000:ℝ) ^ 2 := by
        rw [div_add_div_same, hell]
      rw [e1, e2]
      linarith [b1, b2]
    have hn20 : 0 < nx0 ^ 2 + ny0 ^ 2 := lt_of_lt_of_le (by norm_num) hn2lb
    set nl := hypot nx0 ny0 with hnl
    have hnl0 : 0 < nl := by rw [hnl]; unfold hypot; exact Real.sqrt_pos.mpr hn20
    have hnlsq : nl ^ 2 = nx0 ^ 2 + ny0 ^ 2 := by
      rw [hnl]; unfold hypot; exact Real.sq_sqrt hn20.le
    have hnllb : 1 / (100000:ℝ) ≤ nl := by
      have h1 : Real.sqrt (1 / (100000:ℝ) ^ 2) ≤ Real.sqrt (nx0 ^ 2 + ny0 ^ 2) :=
        Real.sqrt_le_sqrt hn2lb
      rw [show (1:ℝ) / (100000:ℝ) ^ 2 = (1 / 100000) ^ 2 by ring,
        Real.sqrt_sq (by norm_num : (0:ℝ) ≤ 1 / 100000)] at h1
      rw [hnl]; unfold hypot; exact h1
    have hnl1e6 : (1e-6:ℝ) < nl := lt_of_lt_of_le (by norm_num) hnllb
    -- the explicit value of the anchor
    have hpop : pointOnPerimeter center toward hw hh =
        { x := center.x + lx, y := center.y + ly,
          nx := nx0 / nl, ny := ny0 / nl } := by
      unfold pointOnPerimeter
      rw [if_neg h]
      dsimp only
      rw [← hdx, ← hdy, ← hshw, ← hshh, ← hnormdef, ← hux, ← huy, ← hq, hmax,
        ← hdist, ← hlx, ← hly, ← hnx0, ← hny0, ← hnl]
      rw [if_pos hnl1e6, if_pos hnl1e6]
    rw [hpop]
    refine ⟨?_, ?_, 1 / nl, by positivity, ?_, ?_⟩
    · unfold onEllipsePerimeter
      dsimp only
      rw [show center.x + lx - center.x = lx by ring, show center.y + ly - center.y = ly by ring]
      exact hell
    · dsimp only
      field_simp
      linarith [hnlsq]
    · dsimp only
      rw [show center.x + lx - center.x = lx by ring, ← hnx0]
      ring
    · dsimp only
      rw [show center.y + ly - center.y = ly by ring, ← hny0]
      ring
  · intro hdeg
    unfold pointOnPerimeter
    rw [if_pos hdeg]

/-- C1 witness: the degenerate branch of the amended theorem at a concrete
input — coincident centers anchor at the right-center point, facing east. -/
theorem pointOnPerimeter_ellipse_anchor_witness :
    pointOnPerimeter ⟨0, 0⟩ ⟨0, 0⟩ 5 7 = ⟨0 + 5, 0, 1, 0⟩ :=
  (pointOnPerimeter_ellipse_anchor ⟨0, 0⟩ ⟨0, 0⟩ 5 7 (by norm_num) (by norm_num)).2
    (by norm_num)

/-! ## C3, C7, C10 — drag propagation -/

/-- Concrete evaluation of a full propagation pass: two adjacent same-depth
nodes at the same position; the neighbor gets the entry
`base + delta * 1 * 0.96` (influence 1, smoothing 0.96). -/
theorem dragUpdatesSameDepth (dx dy : ℝ) :
    collectDragPropagationUpdates dragRenderNodes dragStore dragDepthSame (dragParamsAt dx dy) =
      [("N", ⟨0 + dx * 1 * 0.96, 0 + dy * 1 * 0.96⟩)] := by
  unfold collectDragPropagationUpdates
  simp only [dragRenderNodes, dragParamsAt, List.find?, decide_True, decide_False]
  norm_num [dragStore, dragDepthSame, dragBasePositions, alFind, alGetList,
    getDepthVisualScale, NODE_WIDTH_BY_KIND, dragFuel, dragLoop, processNeighbor,
    alSet, hypot, minInfluence, Real.sqrt_zero,
    (by decide : ¬ (("N":String) = "S")), (by decide : ¬ (("S":String) = "N"))]

/-- Concrete evaluation with the neighbor four levels deeper: the uncapped
influence product is 1.736, the implementation caps it at 1, and the
smoothing is 0.99, so the applied displacement is `delta * 1 * 0.99`. -/
theorem dragUpdatesDepthJump (dx dy : ℝ) :
    collectDragPropagationUpdates dragRenderNodes dragStore dragDepthJump (dragParamsAt dx dy) =
      [("N", ⟨0 + dx * 1 * 0.99, 0 + dy * 1 * 0.99⟩)] := by
  unfold collectDragPropagationUpdates
  simp only [dragRenderNodes, dragParamsAt, List.find?, decide_True, decide_False]
  norm_num [dragStore, dragDepthJump, dragBasePositions, alFind, alGetList,
    getDepthVisualScale, NODE_WIDTH_BY_KIND, dragFuel, dragLoop, processNeighbor,
    alSet, hypot, minInfluence, Real.sqrt_zero,
    (by decide : ¬ (("N":String) = "S")), (by decide : ¬ (("S":String) = "N"))]

/-- C3 counterexample: with a neighbor four levels deeper at zero canvas
distance, the code caps the influence at 1 (`Math.min(1, …)`), applying an
x-displacement of `1 * 1 * 0.99 = 0.99`; the claim formula (uncapped)
evaluates to 1.736, which would apply `1 * 1.736 * 0.99 = 1.71864`. -/
theorem dragInfluence_cap_counterexample :
    alFind (collectDragPropagationUpdates dragRenderNodes dragStore dragDepthJump
      (dragParamsAt 1 0)) "N" = some ⟨0 + 1 * 1 * 0.99, 0 + 0 * 1 * 0.99⟩ ∧
    specInfluence 0 1 4 True False = 1.736 ∧
    ((0:ℝ) + 1 * 1 * 0.99 ≠ 0 + 1 * specInfluence 0 1 4 True False * 0.99) := by
  refine ⟨?_, ?_, ?_⟩
  · rw [dragUpdatesDepthJump]
    rfl
  · unfold specInfluence
    norm_num [min_def]
  · unfold specInfluence
    norm_num [min_def]

/-- C3 (amended): for every neighbor visited within the canvas-distance
budget, the applied influence equals `min(1, (1 - normalizedCanvasDistance)²
× transmission × depthUniformityBoost × directionalBias)` — the claim
formula capped at 1 — the recorded position is
`base + delta × influence × smoothing`, and whenever this influence falls
below the fixed threshold 0.004 the neighbor receives no update and is not
enqueued, so its own neighbors are never explored via this path. -/
theorem dragInfluence_formula (ctx : DragCtx) (current : HopEntry) (st : HopState)
    (nid : String) (pos : Pt)
    (hnv : nid ∉ st.visited)
    (hpos : alFind ctx.basePositionsById nid = some pos)
    (hbudget : ¬ (hypot (pos.x - ctx.sourcePosition.x) (pos.y - ctx.sourcePosition.y) *
        ctx.viewportScale > ctx.maxCanvasDistancePx)) :
    (minInfluence ≤ dragInfluenceAt ctx current nid pos →
      (processNeighbor ctx current st nid).updates = alSet st.updates nid
        ⟨pos.x + ctx.deltaX * dragInfluenceAt ctx current nid pos * dragSmoothingAt ctx current nid,
         pos.y + ctx.deltaY * dragInfluenceAt ctx current nid pos * dragSmoothingAt ctx current nid⟩ ∧
      (processNeighbor ctx current st nid).queue = st.queue ++
        [⟨nid, current.transmission *
          (if ((alFind ctx.depthById nid).getD current.depth) < current.depth then 0.86 else 0.95),
          (alFind ctx.depthById nid).getD current.depth⟩]) ∧
    (dragInfluenceAt ctx current nid pos < minInfluence →
      (processNeighbor ctx current st nid).updates = st.updates ∧
      (processNeighbor ctx current st nid).queue = st.queue) := by
  unfold processNeighbor
  rw [if_neg hnv, hpos]
  dsimp only
  rw [if_neg hbudget]
  simp only [one_mul]
  unfold dragInfluenceAt specInfluence dragNormalizedDistance dragSmoothingAt
  constructor
  · intro hge
    rw [if_neg (not_lt.mpr hge)]
    exact ⟨rfl, rfl⟩
  · intro hlt
    rw [if_pos hlt]
    exact ⟨rfl, rfl⟩

theorem processNeighbor_visited (ctx : DragCtx) (current : HopEntry) (st : HopState)
    (nid : String) :
    (processNeighbor ctx current st nid).visited =
      if nid ∈ st.visited then st.visited else nid :: st.visited := by
  unfold processNeighbor
  by_cases hv : nid ∈ st.visited
  · rw [if_pos hv, if_pos hv]
  · rw [if_neg hv, if_neg hv]
    cases hfind : alFind ctx.basePositionsById nid with
    | none => rfl
    | some npos =>
        dsimp only
        repeat' split
        all_goals rfl

theorem processNeighbor_cases (ctx : DragCtx) (current : HopEntry) (st : HopState)
    (nid : String) :
    (nid ∈ st.visited ∧ processNeighbor ctx current st nid = st) ∨
    (nid ∉ st.visited ∧
      (processNeighbor ctx current st nid).updates = st.updates ∧
      (processNeighbor ctx current st nid).queue = st.queue ∧
      (processNeighbor ctx current st nid).visited = nid :: st.visited) ∨
    (∃ pos, nid ∉ st.visited ∧ alFind ctx.basePositionsById nid = some pos ∧
      minInfluence ≤ dragInfluenceAt ctx current nid pos ∧
      (processNeighbor ctx current st nid).updates = alSet st.updates nid
        ⟨pos.x + ctx.deltaX * dragInfluenceAt ctx current nid pos * dragSmoothingAt ctx current nid,
         pos.y + ctx.deltaY * dragInfluenceAt ctx current nid pos * dragSmoothingAt ctx current nid⟩ ∧
      (processNeighbor ctx current st nid).queue = st.queue ++
        [⟨nid, current.transmission *
          (if ((alFind ctx.depthById nid).getD current.depth) < current.depth then 0.86 else 0.95),
          (alFind ctx.depthById nid).getD current.depth⟩] ∧
      (processNeighbor ctx current st nid).visited = nid :: st.visited) := by
  by_cases hv : nid ∈ st.visited
  · left
    refine ⟨hv, ?_⟩
    unfold processNeighbor
    rw [if_pos hv]
  · cases hfind : alFind ctx.basePositionsById nid with
    | none =>
        right; left
        refine ⟨hv, ?_, ?_, ?_⟩
        · unfold processNeighbor; rw [if_neg hv, hfind]
        · unfold processNeighbor; rw [if_neg hv, hfind]
        · rw [processNeighbor_visited, if_neg hv]
    | some npos =>
        by_cases hb : hypot (npos.x - ctx.sourcePosition.x) (npos.y - ctx.sourcePosition.y) *
            ctx.viewportScale > ctx.maxCanvasDistancePx
        · right; left
          refine ⟨hv, ?_, ?_, ?_⟩
          · unfold processNeighbor; rw [if_neg hv, hfind]; dsimp only; rw [if_pos hb]
          · unfold processNeighbor; rw [if_neg hv, hfind]; dsimp only; rw [if_pos hb]
          · rw [processNeighbor_visited, if_neg hv]
        · by_cases hc : minInfluence ≤ dragInfluenceAt ctx current nid npos
          · right; right
            have h := dragInfluence_formula ctx current st nid npos hv hfind hb
            exact ⟨npos, hv, rfl, hc, (h.1 hc).1, (h.1 hc).2,
              by rw [processNeighbor_visited, if_neg hv]⟩
          · right; left
            have h := dragInfluence_formula ctx current st nid npos hv hfind hb
            have hlt := lt_of_not_le hc
            exact ⟨hv, (h.2 hlt).1, (h.2 hlt).2,
              by rw [processNeighbor_visited, if_neg hv]⟩

theorem dragLoop_state_invariant (ctx : DragCtx) (adjacency : List (String × List String))
    (P : HopState → Prop) (Q : HopEntry → Prop)
    (hpop : ∀ st current rest, st.queue = current :: rest → P st →
      Q current ∧ P { st with queue := rest })
    (hstep : ∀ current st nid, Q current → P st → P (processNeighbor ctx current st nid)) :
    ∀ fuel st, P st → P (dragLoop ctx adjacency fuel st) := by
  intro fuel
  induction fuel with
  | zero => intro st h; exact h
  | succ n ih =>
      intro st h
      unfold dragLoop
      cases hq : st.queue with
      | nil => exact h
      | cons current rest =>
          apply ih
          obtain ⟨hQ, h'⟩ := hpop st current rest hq h
          have hfold : ∀ (ns : List String) (st' : HopState), P st' →
              P (ns.foldl (processNeighbor ctx current) st') := by
            intro ns
            induction ns with
            | nil => intro st' h'; exact h'
            | cons hd tl ih2 =>
                intro st' h'
                exact ih2 _ (hstep current st' hd hQ h')
          exact hfold _ _ h'

theorem dragInfluenceAt_nonneg (ctx : DragCtx) (current : HopEntry) (nid : String)
    (pos : Pt) (htr : 0 ≤ current.transmission) :
    0 ≤ dragInfluenceAt ctx current nid pos := by
  unfold dragInfluenceAt specInfluence
  apply le_min zero_le_one
  have h1 : (0:ℝ) ≤ (1 - dragNormalizedDistance ctx pos) ^ 2 := sq_nonneg _
  have h2 : (0:ℝ) ≤ 1 + min 0.55
      (((max 0 (((alFind ctx.depthById nid).getD current.depth) - ctx.sourceDepth) : ℤ) : ℝ) * 0.14) := by
    have hd : (0:ℝ) ≤ ((max 0 (((alFind ctx.depthById nid).getD current.depth) - ctx.sourceDepth) : ℤ) : ℝ) := by
      exact_mod_cast le_max_left 0 _
    have : (0:ℝ) ≤ min 0.55 (((max 0 (((alFind ctx.depthById nid).getD current.depth) - ctx.sourceDepth) : ℤ) : ℝ) * 0.14) := by
      apply le_min (by norm_num)
      positivity
    linarith
  have h3 : (0:ℝ) ≤ (if ((alFind ctx.depthById nid).getD current.depth) > current.depth then (1.12:ℝ)
      else if ((alFind ctx.depthById nid).getD current.depth) < current.depth then 0.82 else 1) := by
    split
    · norm_num
    · split
      · norm_num
      · norm_num
  exact mul_nonneg (mul_nonneg (mul_nonneg h1 htr) h2) h3

theorem dragInfluenceAt_le_one (ctx : DragCtx) (current : HopEntry) (nid : String) (pos : Pt) :
    dragInfluenceAt ctx current nid pos ≤ 1 := min_le_left _ _

theorem dragSmoothingAt_nonneg (ctx : DragCtx) (current : HopEntry) (nid : String) :
    0 ≤ dragSmoothingAt ctx current nid := by
  unfold dragSmoothingAt
  apply le_min (by norm_num)
  have hd : (0:ℝ) ≤ ((max 0 (((alFind ctx.depthById nid).getD current.depth) - ctx.sourceDepth) : ℤ) : ℝ) := by
    exact_mod_cast le_max_left 0 _
  nlinarith

theorem dragSmoothingAt_le (ctx : DragCtx) (current : HopEntry) (nid : String) :
    dragSmoothingAt ctx current nid ≤ 0.99 := min_le_left _ _

theorem processNeighbor_zero_delta (ctx : DragCtx) (hdx : ctx.deltaX = 0)
    (hdy : ctx.deltaY = 0) (nodeId0 : String) (current : HopEntry) (st : HopState)
    (nid : String)
    (h : (∀ k pt, alFind st.updates k = some pt → alFind ctx.basePositionsById k = some pt) ∧
      nodeId0 ∈ st.visited ∧ alFind st.updates nodeId0 = none) :
    (∀ k pt, alFind (processNeighbor ctx current st nid).updates k = some pt →
      alFind ctx.basePositionsById k = some pt) ∧
    nodeId0 ∈ (processNeighbor ctx current st nid).visited ∧
    alFind (processNeighbor ctx current st nid).updates nodeId0 = none := by
  rcases processNeighbor_cases ctx current st nid with
    ⟨hv, heq⟩ | ⟨hv, hu, hq, hvis⟩ | ⟨pos, hv, hfind, hc, hu, hq, hvis⟩
  · rw [heq]
    exact h
  · refine ⟨?_, ?_, ?_⟩
    · intro k pt hk
      rw [hu] at hk
      exact h.1 k pt hk
    · rw [hvis]
      exact List.mem_cons_of_mem _ h.2.1
    · rw [hu]
      exact h.2.2
  · have hnid : ¬ (nid = nodeId0) := fun he => hv (he ▸ h.2.1)
    have hval : (⟨pos.x + ctx.deltaX * dragInfluenceAt ctx current nid pos * dragSmoothingAt ctx current nid,
        pos.y + ctx.deltaY * dragInfluenceAt ctx current nid pos * dragSmoothingAt ctx current nid⟩ : Pt) = pos := by
      rw [hdx, hdy]
      simp
    refine ⟨?_, ?_, ?_⟩
    · intro k pt hk
      rw [hu, alFind_alSet] at hk
      by_cases hknid : nid = k
      · rw [if_pos hknid] at hk
        rw [← hknid]
        rw [hfind]
        rw [hval] at hk
        exact hk.symm ▸ rfl
      · rw [if_neg hknid] at hk
        exact h.1 k pt hk
    · rw [hvis]
      exact List.mem_cons_of_mem _ h.2.1
    · rw [hu, alFind_alSet, if_neg hnid]
      exact h.2.2

/-- C7 (amended): a drag delta of (0, 0) yields no position changes — every
entry the propagation writes equals that node's base position exactly, and
the dragged node itself never receives an entry. (The map does contain
no-op entries for reached neighbors; see the counterexample.) -/
theorem dragZeroDelta_noop (renderNodes : List RenderNode) (store : DragStore)
    (depthById : List (String × ℤ)) (p : DragParams)
    (hdx : p.deltaX = 0) (hdy : p.deltaY = 0) :
    (∀ k pt, alFind (collectDragPropagationUpdates renderNodes store depthById p) k = some pt →
      alFind p.basePositionsById k = some pt) ∧
    alFind (collectDragPropagationUpdates renderNodes store depthById p) p.nodeId = none := by
  unfold collectDragPropagationUpdates
  cases hfind : renderNodes.find? (fun n => n.id = p.nodeId) with
  | none =>
      refine ⟨?_, rfl⟩
      intro k pt hk
      simp [alFind] at hk
  | some sourceNode =>
      dsimp only
      have H := dragLoop_state_invariant
        { sourceDepth := (alFind depthById p.nodeId).getD sourceNode.depth
          maxCanvasDistancePx := max 72 (NODE_WIDTH_BY_KIND sourceNode.visualKind *
            getDepthVisualScale sourceNode.depth * store.viewportScale *
            (2.4 + (max 0 ((store.connectionDepth : ℝ) - 1)) * 0.55))
          viewportScale := store.viewportScale
          depthById := depthById
          deltaX := p.deltaX
          deltaY := p.deltaY
          sourcePosition := p.sourcePosition
          basePositionsById := p.basePositionsById }
        store.adjacencyByNode
        (fun st => (∀ k pt, alFind st.updates k = some pt →
            alFind p.basePositionsById k = some pt) ∧
          p.nodeId ∈ st.visited ∧ alFind st.updates p.nodeId = none)
        (fun _ => True)
        (fun st current rest hq h => ⟨trivial, h⟩)
        (fun current st nid _ h => processNeighbor_zero_delta _ hdx hdy p.nodeId current st nid h)
        (dragFuel store.adjacencyByNode)
        ⟨[], [⟨p.nodeId, 1, (alFind depthById p.nodeId).getD sourceNode.depth⟩], [p.nodeId]⟩
        ⟨fun k pt hk => by simp [alFind] at hk, List.mem_singleton_self _, rfl⟩
      exact ⟨H.1, H.2.2⟩

theorem processNeighbor_bound (ctx : DragCtx) (current : HopEntry) (st : HopState)
    (nid : String) (htr : 0 ≤ current.transmission)
    (h : dragBound ctx.basePositionsById ctx.deltaX ctx.deltaY st.updates ∧
      dragQueueNonneg st.queue) :
    dragBound ctx.basePositionsById ctx.deltaX ctx.deltaY
      (processNeighbor ctx current st nid).updates ∧
    dragQueueNonneg (processNeighbor ctx current st nid).queue := by
  rcases processNeighbor_cases ctx current st nid with
    ⟨hv, heq⟩ | ⟨hv, hu, hq, hvis⟩ | ⟨pos, hv, hfind, hc, hu, hq, hvis⟩
  · rw [heq]
    exact h
  · rw [hu, hq]
    exact h
  · constructor
    · intro k pt hk
      rw [hu, alFind_alSet] at hk
      by_cases hknid : nid = k
      · rw [if_pos hknid] at hk
        have hI0 := dragInfluenceAt_nonneg ctx current nid pos htr
        have hI1 := dragInfluenceAt_le_one ctx current nid pos
        have hS0 := dragSmoothingAt_nonneg ctx current nid
        have hS1 := dragSmoothingAt_le ctx current nid
        refine ⟨pos, by rw [← hknid]; exact hfind, ?_, ?_⟩
        · rw [← Option.some_inj.mp hk]
          have e1 : (⟨pos.x + ctx.deltaX * dragInfluenceAt ctx current nid pos * dragSmoothingAt ctx current nid,
              pos.y + ctx.deltaY * dragInfluenceAt ctx current nid pos * dragSmoothingAt ctx current nid⟩ : Pt).x - pos.x =
              ctx.deltaX * (dragInfluenceAt ctx current nid pos * dragSmoothingAt ctx current nid) := by
            dsimp only
            ring
          rw [e1, abs_mul]
          have habs : |dragInfluenceAt ctx current nid pos * dragSmoothingAt ctx current nid| =
              dragInfluenceAt ctx current nid pos * dragSmoothingAt ctx current nid :=
            abs_of_nonneg (mul_nonneg hI0 hS0)
          rw [habs]
          nlinarith [abs_nonneg ctx.deltaX, mul_le_mul hI1 hS1 hS0 zero_le_one]
        · rw [← Option.some_inj.mp hk]
          have e1 : (⟨pos.x + ctx.deltaX * dragInfluenceAt ctx current nid pos * dragSmoothingAt ctx current nid,
              pos.y + ctx.deltaY * dragInfluenceAt ctx current nid pos * dragSmoothingAt ctx current nid⟩ : Pt).y - pos.y =
              ctx.deltaY * (dragInfluenceAt ctx current nid pos * dragSmoothingAt ctx current nid) := by
            dsimp only
            ring
          rw [e1, abs_mul]
          have habs : |dragInfluenceAt ctx current nid pos * dragSmoothingAt ctx current nid| =
              dragInfluenceAt ctx current nid pos * dragSmoothingAt ctx current nid :=
            abs_of_nonneg (mul_nonneg hI0 hS0)
          rw [habs]
          nlinarith [abs_nonneg ctx.deltaY, mul_le_mul hI1 hS1 hS0 zero_le_one]
      · rw [if_neg hknid] at hk
        exact h.1 k pt hk
    · intro e he
      rw [hq] at he
      rcases List.mem_append.mp he with h1 | h1
      · exact h.2 e h1
      · rcases List.mem_singleton.mp h1 with rfl
        refine mul_nonneg htr ?_
        split
        · norm_num
        · norm_num

/-- C10: for every propagated neighbor, the applied displacement never
exceeds `0.99 × |delta|` per axis: influence is capped at 1 and the
smoothing factor at 0.99, so no propagated node moves farther than the
dragged node along either axis. -/
theorem dragDisplacement_bound (renderNodes : List RenderNode) (store : DragStore)
    (depthById : List (String × ℤ)) (p : DragParams) :
    dragBound p.basePositionsById p.deltaX p.deltaY
      (collectDragPropagationUpdates renderNodes store depthById p) := by
  unfold collectDragPropagationUpdates
  cases hfind : renderNodes.find? (fun n => n.id = p.nodeId) with
  | none =>
      intro k pt hk
      simp [alFind] at hk
  | some sourceNode =>
      dsimp only
      have H := dragLoop_state_invariant
        { sourceDepth := (alFind depthById p.nodeId).getD sourceNode.depth
          maxCanvasDistancePx := max 72 (NODE_WIDTH_BY_KIND sourceNode.visualKind *
            getDepthVisualScale sourceNode.depth * store.viewportScale *
            (2.4 + (max 0 ((store.connectionDepth : ℝ) - 1)) * 0.55))
          viewportScale := store.viewportScale
          depthById := depthById
          deltaX := p.deltaX
          deltaY := p.deltaY
          sourcePosition := p.sourcePosition
          basePositionsById := p.basePositionsById }
        store.adjacencyByNode
        (fun st => dragBound p.basePositionsById p.deltaX p.deltaY st.updates ∧
          dragQueueNonneg st.queue)
        (fun e => 0 ≤ e.transmission)
        (fun st current rest hq h =>
          ⟨h.2 current (by rw [hq]; exact List.mem_cons_self _ _),
            h.1, fun e he => h.2 e (by rw [hq]; exact List.mem_cons_of_mem _ he)⟩)
        (fun current st nid hQ h => processNeighbor_bound _ current st nid hQ h)
        (dragFuel store.adjacencyByNode)
        ⟨[], [⟨p.nodeId, 1, (alFind depthById p.nodeId).getD sourceNode.depth⟩], [p.nodeId]⟩
        ⟨fun k pt hk => by simp [alFind] at hk,
          fun e he => by
            rcases List.mem_singleton.mp he with rfl
            norm_num⟩
      exact H.1


/-- C3 witness: the threshold branch of the influence formula at a concrete
hop — transmission 0.001 gives influence 0.001 < 0.004, so the neighbor gets
no entry and nothing is enqueued. -/
theorem dragInfluence_formula_witness :
    (processNeighbor witnessCtx ⟨"S", 0.001, 0⟩ ⟨[], [], ["S"]⟩ "N").updates = [] ∧
    (processNeighbor witnessCtx ⟨"S", 0.001, 0⟩ ⟨[], [], ["S"]⟩ "N").queue = [] := by
  have h := dragInfluence_formula witnessCtx ⟨"S", 0.001, 0⟩ ⟨[], [], ["S"]⟩ "N" ⟨0, 0⟩
    (by decide) rfl
    (by norm_num [witnessCtx, hypot, Real.sqrt_zero])
  exact h.2 (by
    norm_num [dragInfluenceAt, specInfluence, dragNormalizedDistance, witnessCtx,
      alFind, minInfluence, hypot, Real.sqrt_zero, min_def, max_def])

/-- C7 counterexample: a drag delta of (0, 0) still inserts an update-map
entry for the neighbor `N` (with its unchanged base position), so the map
does contain an entry for a node other than the dragged one. -/
theorem dragZeroDelta_writes_entry_counterexample :
    collectDragPropagationUpdates dragRenderNodes dragStore dragDepthSame (dragParamsAt 0 0) =
      [("N", ⟨0, 0⟩)] ∧ ("N" : String) ≠ "S" := by
  refine ⟨?_, by decide⟩
  have h := dragUpdatesSameDepth 0 0
  rw [h]
  norm_num

/-- C7 witness: the zero-delta no-op theorem applied to the concrete
scenario. -/
theorem dragZeroDelta_noop_witness :
    (∀ k pt, alFind (collectDragPropagationUpdates dragRenderNodes dragStore dragDepthSame
        (dragParamsAt 0 0)) k = some pt →
      alFind (dragParamsAt 0 0).basePositionsById k = some pt) ∧
    alFind (collectDragPropagationUpdates dragRenderNodes dragStore dragDepthSame
      (dragParamsAt 0 0)) "S" = none :=
  dragZeroDelta_noop dragRenderNodes dragStore dragDepthSame (dragParamsAt 0 0) rfl rfl

/-- C10 witness: the displacement bound applied to the concrete depth-jump
run — the neighbor entry `(0.99, 0)` sits within `0.99 * |delta|` of its
base position on both axes. -/
theorem dragDisplacement_bound_witness :
    ∃ base, alFind (dragParamsAt 1 0).basePositionsById "N" = some base ∧
      |((0:ℝ) + 1 * 1 * 0.99) - base.x| ≤ 0.99 * |(dragParamsAt 1 0).deltaX| ∧
      |((0:ℝ) + 0 * 1 * 0.99) - base.y| ≤ 0.99 * |(dragParamsAt 1 0).deltaY| := by
  have h := dragDisplacement_bound dragRenderNodes dragStore dragDepthJump (dragParamsAt 1 0)
  exact h "N" ⟨0 + 1 * 1 * 0.99, 0 + 0 * 1 * 0.99⟩ (by rw [dragUpdatesDepthJump]; rfl)

/-! ## C5 — angle allocation: weight recursion, root angle, slice tiling -/

theorem specWeight_stable (cbp : List (String × List String)) (μ : String → ℕ)
    (hrank : rankDec cbp μ) :
    ∀ m n, μ n < m → ∀ fuel, μ n < fuel → ∀ path, (∀ q ∈ path, μ n < μ q) →
      specWeight cbp fuel n path = specWeight cbp (μ n + 1) n [] := by
  intro m
  induction m with
  | zero => intro n hn; omega
  | succ m ih =>
      intro n hn fuel hfuel path hpath
      cases fuel with
      | zero => omega
      | succ f =>
          have hnp : n ∉ path := fun hmem => absurd (hpath n hmem) (lt_irrefl _)
          unfold specWeight
          rw [if_neg hnp, if_neg (List.not_mem_nil n)]
          cases hemp : (alGetList cbp n).isEmpty
          · simp only [Bool.false_eq_true, if_false]
            congr 1
            have hmap : ∀ c ∈ alGetList cbp n,
                specWeight cbp f c (n :: path) = specWeight cbp (μ c + 1) c [] := by
              intro c hc
              have hcn : μ c < μ n := hrank n c hc
              exact ih c (by omega) f (by omega) (n :: path)
                (fun q hq => by
                  rcases List.mem_cons.mp hq with rfl | hq2
                  · exact hcn
                  · exact lt_trans hcn (hpath q hq2))
            have hmap2 : ∀ c ∈ alGetList cbp n,
                specWeight cbp (μ n) c [n] = specWeight cbp (μ c + 1) c [] := by
              intro c hc
              have hcn : μ c < μ n := hrank n c hc
              exact ih c (by omega) (μ n) (by omega) [n]
                (fun q hq => by
                  rcases List.mem_singleton.mp hq with rfl
                  exact hcn)
            rw [List.map_congr_left hmap, List.map_congr_left hmap2]
          · rw [if_pos hemp, if_pos hemp]

theorem specWeight_recursion (cbp : List (String × List String)) (μ : String → ℕ)
    (hrank : rankDec cbp μ) (n : String) :
    specWeight cbp (μ n + 1) n [] =
      if (alGetList cbp n).isEmpty then 1
      else 1 + ((alGetList cbp n).map (fun c => specWeight cbp (μ c + 1) c [])).sum := by
  conv_lhs => unfold specWeight
  rw [if_neg (List.not_mem_nil n)]
  cases hemp : (alGetList cbp n).isEmpty
  · rw [if_neg (by simp [hemp]), if_neg (by simp [hemp])]
    refine congrArg (fun s => 1 + s) (congrArg List.sum (List.map_congr_left ?_))
    intro c hc
    have hcn : μ c < μ n := hrank n c hc
    exact specWeight_stable cbp μ hrank (μ c + 1) c (Nat.lt_succ_self _) (μ n) hcn [n]
      (fun q hq => by rcases List.mem_singleton.mp hq with rfl; exact hcn)
  · rw [if_pos hemp]
    simp

theorem computeSubtreeWeight_spec (cbp : List (String × List String)) (μ : String → ℕ)
    (hrank : rankDec cbp μ) :
    ∀ m n, μ n < m → ∀ fuel, μ n < fuel → ∀ cache visiting,
      cacheSpecOK cbp μ cache → (∀ q ∈ visiting, μ n < μ q) →
      (computeSubtreeWeight cbp fuel n cache visiting).1 = specWeight cbp (μ n + 1) n [] ∧
      cacheSpecOK cbp μ (computeSubtreeWeight cbp fuel n cache visiting).2 := by
  intro m
  induction m with
  | zero => intro n hn; omega
  | succ m ih =>
      intro n hn fuel hfuel cache visiting hcache hvis
      cases fuel with
      | zero => omega
      | succ f =>
          unfold computeSubtreeWeight
          cases hhit : alFind cache n with
          | some w => exact ⟨hcache n w hhit, hcache⟩
          | none =>
              rw [if_neg (fun hmem => absurd (hvis n hmem) (lt_irrefl _))]
              have hsum : ∀ cs, (∀ c ∈ cs, μ c < μ n) → ∀ cache2, cacheSpecOK cbp μ cache2 →
                  (sumChildWeights cbp f (n :: visiting) cs cache2).1 =
                    (cs.map (fun c => specWeight cbp (μ c + 1) c [])).sum ∧
                  cacheSpecOK cbp μ (sumChildWeights cbp f (n :: visiting) cs cache2).2 := by
                intro cs
                induction cs with
                | nil =>
                    intro _ cache2 hc2
                    unfold sumChildWeights
                    exact ⟨by simp, hc2⟩
                | cons c cs ihc =>
                    intro hcs cache2 hc2
                    have hc : μ c < μ n := hcs c (List.mem_cons_self c cs)
                    have h1 := ih c (by omega) f (by omega) cache2 (n :: visiting) hc2
                      (fun q hq => by
                        rcases List.mem_cons.mp hq with rfl | hq2
                        · exact hc
                        · exact lt_trans hc (hvis q hq2))
                    have h2 := ihc (fun d hd => hcs d (List.mem_cons_of_mem c hd))
                      (computeSubtreeWeight cbp f c cache2 (n :: visiting)).2 h1.2
                    unfold sumChildWeights
                    refine ⟨?_, h2.2⟩
                    simp only [List.map_cons, List.sum_cons]
                    rw [h1.1, h2.1]
              cases hemp : (alGetList cbp n).isEmpty
              · rw [if_neg (by simp [hemp])]
                have hs := hsum (alGetList cbp n) (fun c hc => hrank n c hc) cache hcache
                have hrec : specWeight cbp (μ n + 1) n [] =
                    1 + ((alGetList cbp n).map (fun c => specWeight cbp (μ c + 1) c [])).sum := by
                  rw [specWeight_recursion cbp μ hrank n, if_neg (by simp [hemp])]
                constructor
                · dsimp only
                  rw [hs.1, hrec]
                · dsimp only
                  intro k w hk
                  rw [alFind_alSet] at hk
                  by_cases hkn : n = k
                  · rw [if_pos hkn] at hk
                    rcases Option.some_inj.mp hk with rfl
                    rw [← hkn, hrec, hs.1]
                  · rw [if_neg hkn] at hk
                    exact hs.2 k w hk
              · rw [if_pos hemp]
                have hrec : specWeight cbp (μ n + 1) n [] = 1 := by
                  rw [specWeight_recursion cbp μ hrank n, if_pos hemp]
                constructor
                · dsimp only
                  rw [hrec]
                · dsimp only
                  intro k w hk
                  rw [alFind_alSet] at hk
                  by_cases hkn : n = k
                  · rw [if_pos hkn] at hk
                    rcases Option.some_inj.mp hk with rfl
                    rw [← hkn, hrec]
                  · rw [if_neg hkn] at hk
                    exact hcache k w hk

theorem computeSubtreeWeight_ge_one :
    ∀ (fuel : ℕ) (cbp : List (String × List String)) (n : String) cache visiting,
      cacheGE cache →
      1 ≤ (computeSubtreeWeight cbp fuel n cache visiting).1 ∧
      cacheGE (computeSubtreeWeight cbp fuel n cache visiting).2 := by
  intro fuel
  induction fuel with
  | zero =>
      intro cbp n cache visiting h
      unfold computeSubtreeWeight
      exact ⟨le_refl 1, h⟩
  | succ f ih =>
      intro cbp n cache visiting h
      unfold computeSubtreeWeight
      cases hhit : alFind cache n with
      | some w => exact ⟨h n w hhit, h⟩
      | none =>
          by_cases hv : n ∈ visiting
          · rw [if_pos hv]
            exact ⟨le_refl 1, h⟩
          · rw [if_neg hv]
            have hsum : ∀ cs cache2, cacheGE cache2 →
                cacheGE (sumChildWeights cbp f (n :: visiting) cs cache2).2 := by
              intro cs
              induction cs with
              | nil =>
                  intro cache2 h2
                  unfold sumChildWeights
                  exact h2
              | cons c cs ihc =>
                  intro cache2 h2
                  unfold sumChildWeights
                  exact ihc _ (ih cbp c cache2 (n :: visiting) h2).2
            cases hemp : (alGetList cbp n).isEmpty
            · rw [if_neg (by simp [hemp])]
              refine ⟨by dsimp only; omega, ?_⟩
              dsimp only
              intro k w hk
              rw [alFind_alSet] at hk
              by_cases hkn : n = k
              · rw [if_pos hkn] at hk
                rcases Option.some_inj.mp hk with rfl
                omega
              · rw [if_neg hkn] at hk
                exact hsum _ _ h k w hk
            · rw [if_pos hemp]
              refine ⟨le_refl 1, ?_⟩
              dsimp only
              intro k w hk
              rw [alFind_alSet] at hk
              by_cases hkn : n = k
              · rw [if_pos hkn] at hk
                rcases Option.some_inj.mp hk with rfl
                exact le_refl 1
              · rw [if_neg hkn] at hk
                exact h k w hk

theorem weightedChildren_ge_one (cbp : List (String × List String)) :
    ∀ (cs : List String) (fuel : ℕ) cache, cacheGE cache →
      (∀ p ∈ (weightedChildren cbp fuel cs cache).1, 1 ≤ p.2) ∧
      cacheGE (weightedChildren cbp fuel cs cache).2 := by
  intro cs
  induction cs with
  | nil =>
      intro fuel cache h
      unfold weightedChildren
      exact ⟨by simp, h⟩
  | cons c cs ihc =>
      intro fuel cache h
      unfold weightedChildren
      have h1 := computeSubtreeWeight_ge_one fuel cbp c cache [] h
      have h2 := ihc fuel _ h1.2
      refine ⟨?_, h2.2⟩
      intro p hp
      rcases List.mem_cons.mp hp with rfl | hp2
      · exact h1.1
      · exact h2.1 p hp2

theorem sliceTable_slices_sum (span : ℝ) (total : ℕ) :
    ∀ (ws : List (String × ℕ)) (cursor : ℝ),
      ((sliceTable span total cursor ws).map (fun e => e.2.2)).sum =
        span * (((ws.map (fun p => p.2)).sum : ℕ) : ℝ) / (total : ℝ) := by
  intro ws
  induction ws with
  | nil =>
      intro cursor
      simp [sliceTable]
  | cons hd tl ih =>
      intro cursor
      obtain ⟨c, w⟩ := hd
      unfold sliceTable
      simp only [List.map_cons, List.sum_cons]
      rw [ih]
      push_cast
      ring

theorem sliceTable_bounds (span : ℝ) (total : ℕ) (hspan : 0 < span) (htotpos : 0 < total) :
    ∀ (ws : List (String × ℕ)) (cursor : ℝ), (∀ p ∈ ws, 1 ≤ p.2) →
      ∀ e ∈ sliceTable span total cursor ws,
        cursor ≤ e.2.1 ∧ 0 < e.2.2 ∧
        e.2.1 + e.2.2 ≤ cursor + span * (((ws.map (fun p => p.2)).sum : ℕ) : ℝ) / total := by
  intro ws
  induction ws with
  | nil =>
      intro cursor _ e he
      simp [sliceTable] at he
  | cons hd tl ih =>
      intro cursor hws e he
      obtain ⟨c, w⟩ := hd
      unfold sliceTable at he
      have hw : 1 ≤ w := hws (c, w) (List.mem_cons_self _ _)
      have hwpos : (0:ℝ) < (w : ℝ) := by exact_mod_cast Nat.lt_of_lt_of_le Nat.zero_lt_one hw
      have htpos : (0:ℝ) < (total : ℝ) := by exact_mod_cast htotpos
      have hslicepos : 0 < span * ((w : ℝ) / (total : ℝ)) := by positivity
      have htailsum : (0:ℝ) ≤ span * (((tl.map (fun p => p.2)).sum : ℕ) : ℝ) / total := by positivity
      have harith : span * ((w : ℝ) / (total : ℝ)) +
          span * (((tl.map (fun p => p.2)).sum : ℕ) : ℝ) / total =
          span * ((((c, w) :: tl).map (fun p => p.2)).sum : ℕ) / total := by
        simp only [List.map_cons, List.sum_cons]
        push_cast
        ring
      rcases List.mem_cons.mp he with rfl | he2
      · refine ⟨le_refl _, hslicepos, ?_⟩
        dsimp only
        linarith [harith, htailsum]
      · have h2 := ih (cursor + span * ((w : ℝ) / (total : ℝ)))
          (fun p hp => hws p (List.mem_cons_of_mem _ hp)) e he2
        refine ⟨by linarith [h2.1], h2.2.1, by linarith [h2.2.2, harith]⟩

theorem sliceTable_midpoints (span : ℝ) (total : ℕ) (ws : List (String × ℕ)) (start : ℝ)
    (hspan : 0 < span) (htot : total = (ws.map (fun p => p.2)).sum)
    (hws : ∀ p ∈ ws, 1 ≤ p.2) :
    ∀ e ∈ sliceTable span total start ws,
      start < e.2.1 + e.2.2 / 2 ∧ e.2.1 + e.2.2 / 2 < start + span := by
  cases ws with
  | nil =>
      intro e he
      simp [sliceTable] at he
  | cons hd tl =>
      intro e he
      have htotpos : 0 < total := by
        rw [htot]
        have := hws hd (List.mem_cons_self _ _)
        simp only [List.map_cons, List.sum_cons]
        omega
      have h := sliceTable_bounds span total hspan htotpos (hd :: tl) start hws e he
      have htpos : (0:ℝ) < (total : ℝ) := by exact_mod_cast htotpos
      have hTT : span * (((( hd :: tl).map (fun p => p.2)).sum : ℕ) : ℝ) / total = span := by
        rw [← htot]
        field_simp
      constructor
      · have := h.2.1
        linarith [h.1]
      · have := h.2.2
        rw [hTT] at this
        linarith [h.2.1]

theorem weightedChildren_ids (cbp : List (String × List String)) :
    ∀ (cs : List String) (fuel : ℕ) cache,
      ((weightedChildren cbp fuel cs cache).1).map (fun p => p.1) = cs := by
  intro cs
  induction cs with
  | nil =>
      intro fuel cache
      unfold weightedChildren
      rfl
  | cons c cs ihc =>
      intro fuel cache
      unfold weightedChildren
      simp [ihc]

theorem sliceTable_ids (span : ℝ) (total : ℕ) :
    ∀ (ws : List (String × ℕ)) (cursor : ℝ),
      (sliceTable span total cursor ws).map (fun e => e.1) = ws.map (fun p => p.1) := by
  intro ws
  induction ws with
  | nil =>
      intro cursor
      simp [sliceTable]
  | cons hd tl ih =>
      intro cursor
      obtain ⟨c, w⟩ := hd
      unfold sliceTable
      simp [ih]

theorem assign_preserves_high (cbp : List (String × List String)) (μ : String → ℕ)
    (hrank : rankDec cbp μ) (wfuel : ℕ) (k : String) :
    ∀ (fuel : ℕ) (n : String) (s e : ℝ) (path : List String) (st : AssignState),
      μ n ≤ μ k →
      alFind (assign cbp wfuel fuel n s e path st).angleById k = alFind st.angleById k := by
  intro fuel
  induction fuel with
  | zero =>
      intro n s e path st hk
      unfold assign
      rfl
  | succ f ih =>
      intro n s e path st hk
      unfold assign
      by_cases hp : n ∈ path
      · rw [if_pos hp]
      · rw [if_neg hp]
        dsimp only
        cases hemp : (alGetList cbp n).isEmpty
        · rw [if_neg (by simp [hemp])]
          have hmem : ∀ e2 ∈ sliceTable (e - s)
              (if ((weightedChildren cbp wfuel (alGetList cbp n) st.cache).1.map (·.2)).sum = 0
               then 1
               else ((weightedChildren cbp wfuel (alGetList cbp n) st.cache).1.map (·.2)).sum)
              s (weightedChildren cbp wfuel (alGetList cbp n) st.cache).1, μ e2.1 < μ n := by
            intro e2 he2
            have hid : e2.1 ∈ (sliceTable _ _ s
                (weightedChildren cbp wfuel (alGetList cbp n) st.cache).1).map
                (fun x => x.1) := List.mem_map_of_mem _ he2
            rw [sliceTable_ids, weightedChildren_ids] at hid
            exact hrank n e2.1 hid
          have hgen : ∀ (slices : List (String × ℝ × ℝ)) (path2 : List String)
              (st2 : AssignState),
              (∀ e2 ∈ slices, μ e2.1 < μ n) →
              alFind (assignChildren cbp wfuel f path2 slices st2).angleById k =
                alFind st2.angleById k := by
            intro slices
            induction slices with
            | nil =>
                intro path2 st2 _
                unfold assignChildren
                rfl
            | cons hd rest ihs =>
                intro path2 st2 hs
                obtain ⟨c, cursor, slice⟩ := hd
                unfold assignChildren
                have hc : μ c < μ n := hs (c, cursor, slice) (List.mem_cons_self _ _)
                rw [ihs _ _ (fun e2 he2 => hs e2 (List.mem_cons_of_mem _ he2))]
                rw [ih c cursor (cursor + slice) path2 _
                  (le_of_lt (lt_of_lt_of_le hc hk))]
                dsimp only
                rw [alFind_alSet, if_neg (fun hck : c = k =>
                  absurd (hck ▸ lt_of_lt_of_le hc hk) (lt_irrefl _))]
          exact hgen _ _ _ hmem
        · rw [if_pos rfl]

theorem buildTargetAngleById_root_angle (cbp : List (String × List String)) (μ : String → ℕ)
    (hrank : rankDec cbp μ) (root : String) :
    alFind (buildTargetAngleById root cbp) root = some (-(Real.pi / 2)) := by
  unfold buildTargetAngleById
  rw [assign_preserves_high cbp μ hrank (cbp.length + 1) root (cbp.length + 1) root
    (-Real.pi) Real.pi [] ⟨[(root, -(Real.pi / 2))], []⟩ (le_refl _)]
  unfold alFind
  rw [if_pos rfl]

theorem computeSubtreeWeight_acyclic_recursion (cbp : List (String × List String))
    (μ : String → ℕ) (hrank : rankDec cbp μ) :
    ∀ (n : String) (fuel : ℕ) (visiting : List String), μ n < fuel →
      (∀ q ∈ visiting, μ n < μ q) →
      (computeSubtreeWeight cbp fuel n [] visiting).1 =
        if (alGetList cbp n).isEmpty then 1
        else 1 + ((alGetList cbp n).map
            (fun c => (computeSubtreeWeight cbp (μ c + 1) c [] []).1)).sum := by
  intro n fuel visiting hfuel hvis
  have hc0 : cacheSpecOK cbp μ [] := by
    intro k w h
    simp [alFind] at h
  have h1 := (computeSubtreeWeight_spec cbp μ hrank (μ n + 1) n (Nat.lt_succ_self _)
    fuel hfuel [] visiting hc0 hvis).1
  rw [h1, specWeight_recursion cbp μ hrank n]
  cases hemp : (alGetList cbp n).isEmpty
  · rw [if_neg (by simp [hemp]), if_neg (by simp [hemp])]
    refine congrArg (fun s => 1 + s) (congrArg List.sum (List.map_congr_left ?_))
    intro c hcmem
    exact ((computeSubtreeWeight_spec cbp μ hrank (μ c + 1) c (Nat.lt_succ_self _)
      (μ c + 1) (Nat.lt_succ_self _) [] [] hc0 (by intro q hq; cases hq)).1).symm
  · rw [if_pos rfl, if_pos rfl]

theorem sliceTable_tiles (span : ℝ) (total : ℕ) (ws : List (String × ℕ)) (start : ℝ)
    (htot : total = (ws.map (fun p => p.2)).sum) (h0 : total ≠ 0) :
    ((sliceTable span total start ws).map (fun e => e.2.2)).sum = span := by
  rw [sliceTable_slices_sum, ← htot]
  have h : (total : ℝ) ≠ 0 := Nat.cast_ne_zero.mpr h0
  field_simp

/-- C5 (amended): on an acyclic child map (rank function decreasing from
parent to child) the implemented weight satisfies the claimed recursion
weight(n) = 1 + sum of child weights (1 on leaves); the root is assigned
angle -pi/2; and every slice table built from the weighted children the way
`assign` builds it tiles the span exactly (slice widths sum to the span)
with every midpoint angle strictly inside the span. On cyclic child maps
the shared memo cache breaks the claimed path-sensitive recursion, see the
counterexample. -/
theorem angle_allocation_amended (cbp : List (String × List String)) (μ : String → ℕ)
    (hrank : rankDec cbp μ) (root : String) :
    (∀ (n : String) (fuel : ℕ) (visiting : List String), μ n < fuel →
        (∀ q ∈ visiting, μ n < μ q) →
        (computeSubtreeWeight cbp fuel n [] visiting).1 =
          if (alGetList cbp n).isEmpty then 1
          else 1 + ((alGetList cbp n).map
              (fun c => (computeSubtreeWeight cbp (μ c + 1) c [] []).1)).sum) ∧
    alFind (buildTargetAngleById root cbp) root = some (-(Real.pi / 2)) ∧
    (∀ (span start : ℝ) (fuel : ℕ) (cs : List String) (cache : List (String × ℕ))
        (ws : List (String × ℕ)) (total : ℕ),
        0 < span → cacheGE cache → cs ≠ [] →
        ws = (weightedChildren cbp fuel cs cache).1 →
        total = (if ((ws.map (fun p => p.2)).sum = 0) then 1 else (ws.map (fun p => p.2)).sum) →
        ((sliceTable span total start ws).map (fun e => e.2.2)).sum = span ∧
        ∀ e ∈ sliceTable span total start ws,
          start < e.2.1 + e.2.2 / 2 ∧ e.2.1 + e.2.2 / 2 < start + span) := by
  refine ⟨computeSubtreeWeight_acyclic_recursion cbp μ hrank,
    buildTargetAngleById_root_angle cbp μ hrank root, ?_⟩
  intro span start fuel cs cache ws total hspan hcache hcs hws htotal
  have hge : ∀ p ∈ ws, 1 ≤ p.2 := by
    rw [hws]
    exact (weightedChildren_ge_one cbp cs fuel cache hcache).1
  have hwsne : ws ≠ [] := by
    intro hnil
    apply hcs
    have := weightedChildren_ids cbp cs fuel cache
    rw [← hws, hnil] at this
    exact this.symm
  have hsumpos : (ws.map (fun p => p.2)).sum ≠ 0 := by
    cases ws with
    | nil => exact absurd rfl hwsne
    | cons p rest =>
        have := hge p (List.mem_cons_self _ _)
        simp only [List.map_cons, List.sum_cons]
        omega
  have htotal2 : total = (ws.map (fun p => p.2)).sum := by
    rw [htotal, if_neg hsumpos]
  constructor
  · exact sliceTable_tiles span total ws start htotal2 (htotal2 ▸ hsumpos)
  · exact sliceTable_midpoints span total ws start hspan htotal2 hge

/-- C5 counterexample: in the cyclic child map `n -> [x, y]`, `x -> [y]`,
`y -> [x]`, the code computes the sibling weights of `x` and `y` as 3 and 2
(the weight of `y` is served from the memo cache filled while computing
`x`), while the claimed path-sensitive recursion gives weight 3 for both:
a re-entered node contributes 1 only relative to the current path, and `y`
started fresh has weight 3. -/
theorem cached_weight_counterexample :
    (weightedChildren cyclicChildMap 4 ["x", "y"] []).1 = [("x", 3), ("y", 2)] ∧
    specWeight cyclicChildMap 4 "x" [] = 3 ∧
    specWeight cyclicChildMap 4 "y" [] = 3 ∧
    (2 : ℕ) ≠ 3 := by
  refine ⟨?_, by decide, by decide, by decide⟩
  simp [weightedChildren, computeSubtreeWeight, sumChildWeights, cyclicChildMap,
    alGetList, alFind, alSet]

/-- C5 witness: the amended theorem applied to the concrete acyclic child
map with its rank function — the root angle is -pi/2 and the weight of the
root node satisfies the claimed recursion. -/
theorem angle_allocation_amended_witness :
    alFind (buildTargetAngleById "r" acyclicChildMap) "r" = some (-(Real.pi / 2)) ∧
    (computeSubtreeWeight acyclicChildMap 3 "r" [] []).1 =
      1 + ((alGetList acyclicChildMap "r").map
        (fun c => (computeSubtreeWeight acyclicChildMap (acyclicRank c + 1) c [] []).1)).sum := by
  have hrank : rankDec acyclicChildMap acyclicRank := by
    intro p c hc
    simp only [acyclicChildMap, alGetList, alFind] at hc
    by_cases h1 : ("r" : String) = p
    · rw [if_pos h1] at hc
      subst h1
      simp at hc
      rcases hc with rfl | rfl <;> decide
    · rw [if_neg h1] at hc
      by_cases h2 : ("a" : String) = p
      · rw [if_pos h2] at hc
        subst h2
        simp at hc
        subst hc
        decide
      · rw [if_neg h2] at hc
        simp at hc
  have h := angle_allocation_amended acyclicChildMap acyclicRank hrank "r"
  refine ⟨h.2.1, ?_⟩
  have h1 := h.1 "r" 3 [] (by decide) (by intro q hq; cases hq)
  rw [h1, if_neg (by decide)]

/-! ## C6 — BFS depth invariants -/

theorem alFind_alSetIfAbsent_isSome {α : Type} (m : List (String × α)) (k key : String)
    (v : α) (h : (alFind m key).isSome) : (alFind (alSetIfAbsent m k v) key).isSome := by
  rw [alFind_alSetIfAbsent]
  cases hk : alFind m k with
  | some w => exact h
  | none =>
      cases hkey : alFind m key with
      | some w => exact rfl
      | none => rw [hkey] at h; cases h

theorem alFind_alSetIfAbsent_self_isSome {α : Type} (m : List (String × α)) (k : String)
    (v : α) : (alFind (alSetIfAbsent m k v) k).isSome := by
  rw [alFind_alSetIfAbsent]
  cases hk : alFind m k with
  | some w => rfl
  | none => simp

theorem alFind_alSetIfAbsent_pair {α : Type} (m : List (String × α)) (k key : String)
    (v w : α) (h : alFind (alSetIfAbsent m k v) key = some w) :
    alFind m key = some w ∨ (k = key ∧ alFind m key = none ∧ w = v) := by
  rw [alFind_alSetIfAbsent] at h
  cases hk : alFind m k with
  | some u => rw [hk] at h; exact Or.inl h
  | none =>
      rw [hk] at h
      cases hkey : alFind m key with
      | some u => rw [hkey] at h; exact Or.inl h
      | none =>
          rw [hkey] at h
          by_cases hkk : k = key
          · rw [if_pos hkk] at h
            exact Or.inr ⟨hkk, rfl, (Option.some_inj.mp h).symm⟩
          · rw [if_neg hkk] at h
            cases h

theorem alFind_alSet_isSome {α : Type} (m : List (String × α)) (k key : String)
    (v : α) (h : (alFind m key).isSome) : (alFind (alSet m k v) key).isSome := by
  rw [alFind_alSet]
  by_cases hk : k = key
  · rw [if_pos hk]; exact rfl
  · rw [if_neg hk]; exact h

theorem qfind_cons_ne (e : QueueEntry) (q : List QueueEntry) (key : String)
    (h : ¬ e.id = key) : qfind (e :: q) key = qfind q key := by
  conv_lhs => unfold qfind
  rw [if_neg h]

theorem qfind_cons_eq (e : QueueEntry) (q : List QueueEntry) (key : String)
    (h : e.id = key) : qfind (e :: q) key = some e := by
  conv_lhs => unfold qfind
  rw [if_pos h]

/-- The enqueue fold of `bfsProcess` touches only the parent map and the
queue: visible set and depth map pass through unchanged. -/
theorem enqueue_foldl_fields (pid : String) (d : ℕ) :
    ∀ (ns : List String) (st : BfsState),
      (ns.foldl
        (fun st neighborId =>
          { st with
            parentByNodeId := alSetIfAbsent st.parentByNodeId neighborId (some pid)
            queue := st.queue ++ [⟨neighborId, d⟩] })
        st).visible = st.visible ∧
      (ns.foldl
        (fun st neighborId =>
          { st with
            parentByNodeId := alSetIfAbsent st.parentByNodeId neighborId (some pid)
            queue := st.queue ++ [⟨neighborId, d⟩] })
        st).depthByNodeId = st.depthByNodeId := by
  intro ns
  induction ns with
  | nil => intro st; exact ⟨rfl, rfl⟩
  | cons c cs ih =>
      intro st
      simpa using ih _

theorem qfind_mem (q : List QueueEntry) (key : String) (e : QueueEntry)
    (h : qfind q key = some e) : e ∈ q ∧ e.id = key := by
  induction q with
  | nil => cases h
  | cons hd tl ih =>
      by_cases hid : hd.id = key
      · rw [qfind_cons_eq hd tl key hid] at h
        rcases Option.some_inj.mp h with rfl
        exact ⟨List.mem_cons_self _ _, hid⟩
      · rw [qfind_cons_ne hd tl key hid] at h
        rcases ih h with ⟨hm, he⟩
        exact ⟨List.mem_cons_of_mem _ hm, he⟩

/-- The enqueue fold of `bfsProcess` preserves the BFS invariant, given
that the processing node is visible with a recorded depth. -/
theorem enqueue_foldl_inv (input : LayoutInput) (root pid : String) (d : ℕ) :
    ∀ (ns : List String) (st : BfsState),
      BfsInv input root st →
      root ∈ st.visible →
      alFind st.depthByNodeId pid = some d →
      BfsInv input root
        (ns.foldl
          (fun st neighborId =>
            { st with
              parentByNodeId := alSetIfAbsent st.parentByNodeId neighborId (some pid)
              queue := st.queue ++ [⟨neighborId, d + 1⟩] })
          st) := by
  intro ns
  induction ns with
  | nil =>
      intro st hinv _ _
      exact hinv
  | cons c cs ih =>
      intro st hinv hroot hpid
      refine ih _ ?_ hroot hpid
      refine ⟨?_, ?_, hinv.rootDepth, Or.inl hroot, ?_, hinv.depthDomVisible⟩
      · intro c2 p hcp
        rcases alFind_alSetIfAbsent_pair st.parentByNodeId c c2 (some pid) (some p) hcp with
          hold | ⟨hcc, hnone, hvp⟩
        · rcases hinv.parentDepth c2 p hold with ⟨dp, hdp, hcase⟩
          refine ⟨dp, hdp, ?_⟩
          rcases hcase with hvisc | ⟨hnv, hq2⟩
          · exact Or.inl hvisc
          · refine Or.inr ⟨hnv, fun hsome => ?_⟩
            rw [qfind_append, hq2 hsome]
        · rcases Option.some_inj.mp hvp with rfl
          subst hcc
          have hnv : c ∉ st.visible := by
            intro hc
            have h2 := hinv.visHasParent c hc
            rw [hnone] at h2
            cases h2
          refine ⟨d, hpid, Or.inr ⟨hnv, fun _ => ?_⟩⟩
          have hqf : qfind st.queue c = none := by
            cases hqf : qfind st.queue c with
            | none => rfl
            | some e =>
                rcases qfind_mem st.queue c e hqf with ⟨hm, hid⟩
                rcases hinv.queueIds e hm with hr | hs
                · exact absurd (show c ∈ st.visible by rw [← hid, hr]; exact hroot) hnv
                · rw [hid, hnone] at hs
                  cases hs
          rw [qfind_append, hqf]
          exact qfind_cons_eq _ _ _ rfl
      · intro e he
        rcases List.mem_append.mp he with hold | hnew
        · rcases hinv.queueIds e hold with hr | hs
          · exact Or.inl hr
          · exact Or.inr (alFind_alSetIfAbsent_isSome _ _ _ _ hs)
        · rcases List.mem_singleton.mp hnew with rfl
          exact Or.inr (alFind_alSetIfAbsent_self_isSome _ _ _)
      · intro k hk
        exact alFind_alSetIfAbsent_isSome _ _ _ _ (hinv.visHasParent k hk)

/-- One BFS dequeue step preserves the invariant (the root is assumed to
exist in the node map and the node map to key records by their ids). -/
theorem bfsProcess_inv (input : LayoutInput) (root : String)
    (hwf : WfNodeMap input) (hroot : (alFind input.nodesById root).isSome)
    (adjacency : List (String × List String))
    (current : QueueEntry) (rest : List QueueEntry) (s : BfsState)
    (hq : s.queue = current :: rest)
    (hinv : BfsInv input root s) :
    BfsInv input root (bfsProcess input adjacency current { s with queue := rest }) := by
  unfold bfsProcess
  cases hfind : alFind input.nodesById current.id with
  | none =>
      dsimp only
      refine ⟨?_, ?_, hinv.rootDepth, ?_, hinv.visHasParent, hinv.depthDomVisible⟩
      · intro c p hcp
        rcases hinv.parentDepth c p hcp with ⟨dp, hdp, hcase⟩
        refine ⟨dp, hdp, ?_⟩
        rcases hcase with hvisc | ⟨hnv, hq2⟩
        · exact Or.inl hvisc
        · refine Or.inr ⟨hnv, fun hsome => ?_⟩
          by_cases hcc : current.id = c
          · rw [← hcc, hfind] at hsome
            cases hsome
          · have h3 := hq2 hsome
            rw [hq, qfind_cons_ne current rest c hcc] at h3
            exact h3
      · intro e he
        exact hinv.queueIds e (by rw [hq]; exact List.mem_cons_of_mem _ he)
      · rcases hinv.rootFirst with hr | ⟨_, _, _, hqe⟩
        · exact Or.inl hr
        · rw [hq] at hqe
          have hcid : current.id = root := by
            rw [(List.cons.inj hqe).1]
          rw [hcid] at hfind
          rw [hfind] at hroot
          cases hroot
  | some node =>
      dsimp only
      have hid : node.id = current.id := hwf _ _ hfind
      by_cases hvis : node.id ∈ s.visible
      · rw [if_pos hvis]
        refine ⟨?_, ?_, hinv.rootDepth, ?_, hinv.visHasParent, hinv.depthDomVisible⟩
        · intro c p hcp
          rcases hinv.parentDepth c p hcp with ⟨dp, hdp, hcase⟩
          refine ⟨dp, hdp, ?_⟩
          rcases hcase with hvisc | ⟨hnv, hq2⟩
          · exact Or.inl hvisc
          · refine Or.inr ⟨hnv, fun hsome => ?_⟩
            by_cases hcc : current.id = c
            · exact absurd (show c ∈ s.visible by rw [← hcc, ← hid]; exact hvis) hnv
            · have h3 := hq2 hsome
              rw [hq, qfind_cons_ne current rest c hcc] at h3
              exact h3
        · intro e he
          exact hinv.queueIds e (by rw [hq]; exact List.mem_cons_of_mem _ he)
        · rcases hinv.rootFirst with hr | ⟨hv, _, _, _⟩
          · exact Or.inl hr
          · rw [hv] at hvis
            exact (List.not_mem_nil _ hvis).elim
      · rw [if_neg hvis]
        have hcid : current.id = root ∨ root ∈ s.visible := by
          rcases hinv.rootFirst with hr | ⟨_, _, _, hqe⟩
          · exact Or.inr hr
          · rw [hq] at hqe
            exact Or.inl (by rw [(List.cons.inj hqe).1])
        have hcd0 : node.id = root → current.depth = 0 := by
          intro hnr
          rcases hinv.rootFirst with hr | ⟨_, _, _, hqe⟩
          · exact absurd (hnr ▸ hr) hvis
          · rw [hq] at hqe
            rw [(List.cons.inj hqe).1]
        have hroot1 : root ∈ s.visible ++ [node.id] := by
          rcases hinv.rootFirst with hr | ⟨_, _, _, hqe⟩
          · exact List.mem_append_left _ hr
          · rw [hq] at hqe
            have : node.id = root := by rw [hid, (List.cons.inj hqe).1]
            rw [this]
            exact List.mem_append_right _ (List.mem_singleton.mpr rfl)
        have hrd1 : alFind (alSet s.depthByNodeId node.id current.depth) root = some 0 := by
          by_cases hnr : node.id = root
          · rw [alFind_alSet, if_pos hnr, hcd0 hnr]
          · rw [alFind_alSet, if_neg hnr]
            rcases hinv.rootFirst with hr | ⟨_, _, _, hqe⟩
            · exact hinv.rootDepth hr
            · rw [hq] at hqe
              exact absurd (by rw [hid, (List.cons.inj hqe).1]) hnr
        have hinv1 : BfsInv input root
            ⟨s.visible ++ [node.id], alSet s.depthByNodeId node.id current.depth,
              alSetIfAbsent s.parentByNodeId node.id none, rest⟩ := by
          refine ⟨?_, ?_, fun _ => hrd1, Or.inl hroot1, ?_, ?_⟩
          · intro c p hcp
            rcases alFind_alSetIfAbsent_pair s.parentByNodeId node.id c none (some p) hcp with
              hold | ⟨_, _, hvp⟩
            · rcases hinv.parentDepth c p hold with ⟨dp, hdp, hcase⟩
              have hpvis : p ∈ s.visible := hinv.depthDomVisible p (by rw [hdp]; rfl)
              have hpne : ¬ node.id = p := fun e => hvis (e ▸ hpvis)
              refine ⟨dp, by rw [alFind_alSet, if_neg hpne]; exact hdp, ?_⟩
              rcases hcase with ⟨hcv, hcd⟩ | ⟨hcnv, hq2⟩
              · have hcne : ¬ node.id = c := fun e => hvis (e ▸ hcv)
                exact Or.inl ⟨List.mem_append_left _ hcv,
                  by rw [alFind_alSet, if_neg hcne]; exact hcd⟩
              · by_cases hcn : c = node.id
                · refine Or.inl ⟨List.mem_append_right _ (List.mem_singleton.mpr hcn), ?_⟩
                  have hsome : (alFind input.nodesById c).isSome := by
                    rw [hcn, hid, hfind]
                    rfl
                  have h3 := hq2 hsome
                  rw [hq, qfind_cons_eq current rest c (by rw [← hid, ← hcn])] at h3
                  have hdeq : current.depth = dp + 1 :=
                    congrArg QueueEntry.depth (Option.some_inj.mp h3)
                  rw [alFind_alSet, if_pos hcn.symm, hdeq]
                · refine Or.inr ⟨?_, fun hsome => ?_⟩
                  · intro hm
                    rcases List.mem_append.mp hm with h | h
                    · exact hcnv h
                    · exact hcn (List.mem_singleton.mp h)
                  · have h3 := hq2 hsome
                    rw [hq, qfind_cons_ne current rest c
                      (fun e => hcn (by rw [← e, ← hid]))] at h3
                    exact h3
            · exact absurd hvp (by simp)
          · intro e he
            rcases hinv.queueIds e (by rw [hq]; exact List.mem_cons_of_mem _ he) with hr | hs
            · exact Or.inl hr
            · exact Or.inr (alFind_alSetIfAbsent_isSome _ _ _ _ hs)
          · intro k hk
            rcases List.mem_append.mp hk with h | h
            · exact alFind_alSetIfAbsent_isSome _ _ _ _ (hinv.visHasParent k h)
            · rw [List.mem_singleton.mp h]
              exact alFind_alSetIfAbsent_self_isSome _ _ _
          · intro k hk
            rw [alFind_alSet] at hk
            by_cases hkn : node.id = k
            · exact List.mem_append_right _ (List.mem_singleton.mpr hkn.symm)
            · rw [if_neg hkn] at hk
              exact List.mem_append_left _ (hinv.depthDomVisible k hk)
        by_cases hguard : (¬ node.expanded = true ∨ current.depth ≥ input.connectionDepth)
        · rw [if_pos hguard]
          exact hinv1
        · rw [if_neg hguard]
          exact enqueue_foldl_inv input root node.id current.depth
            (windowedNeighbors input adjacency node.id) _ hinv1 hroot1
            (by rw [alFind_alSet, if_pos rfl])

theorem bfsInitial_inv (input : LayoutInput) (root : String) :
    BfsInv input root ⟨[], [], [], [⟨root, 0⟩]⟩ := by
  refine ⟨?_, ?_, ?_, Or.inr ⟨rfl, rfl, rfl, rfl⟩, ?_, ?_⟩
  · intro c p hcp
    simp [alFind] at hcp
  · intro e he
    rcases List.mem_singleton.mp he with rfl
    exact Or.inl rfl
  · intro hr
    cases hr
  · intro k hk
    cases hk
  · intro k hk
    simp [alFind] at hk

theorem bfsLoop_inv (input : LayoutInput) (root : String)
    (hwf : WfNodeMap input) (hroot : (alFind input.nodesById root).isSome)
    (adjacency : List (String × List String)) :
    ∀ (fuel : ℕ) (s : BfsState), BfsInv input root s →
      BfsInv input root (bfsLoop input adjacency fuel s) := by
  intro fuel
  induction fuel with
  | zero =>
      intro s h
      unfold bfsLoop
      exact h
  | succ f ih =>
      intro s h
      unfold bfsLoop
      cases hq : s.queue with
      | nil => exact h
      | cons current rest =>
          exact ih _ (bfsProcess_inv input root hwf hroot adjacency current rest s hq h)

theorem bfsProcess_depth_persistent (input : LayoutInput)
    (adjacency : List (String × List String)) (current : QueueEntry) (s : BfsState)
    (hdom : ∀ k, (alFind s.depthByNodeId k).isSome → k ∈ s.visible)
    (k : String) (d : ℕ) (hk : alFind s.depthByNodeId k = some d) :
    alFind (bfsProcess input adjacency current s).depthByNodeId k = some d := by
  unfold bfsProcess
  cases hfind : alFind input.nodesById current.id with
  | none => exact hk
  | some node =>
      dsimp only
      by_cases hvis : node.id ∈ s.visible
      · rw [if_pos hvis]
        exact hk
      · rw [if_neg hvis]
        have hkv : k ∈ s.visible := hdom k (by rw [hk]; rfl)
        have hne : ¬ node.id = k := fun e => hvis (e ▸ hkv)
        by_cases hguard : (¬ node.expanded = true ∨ current.depth ≥ input.connectionDepth)
        · rw [if_pos hguard]
          dsimp only
          rw [alFind_alSet, if_neg hne]
          exact hk
        · rw [if_neg hguard]
          rw [(enqueue_foldl_fields node.id (current.depth + 1) _ _).2]
          dsimp only
          rw [alFind_alSet, if_neg hne]
          exact hk

theorem bfsLoop_depth_persistent (input : LayoutInput) (root : String)
    (hwf : WfNodeMap input) (hroot : (alFind input.nodesById root).isSome)
    (adjacency : List (String × List String)) :
    ∀ (fuel : ℕ) (s : BfsState) (k : String) (d : ℕ),
      BfsInv input root s → alFind s.depthByNodeId k = some d →
      alFind (bfsLoop input adjacency fuel s).depthByNodeId k = some d := by
  intro fuel
  induction fuel with
  | zero =>
      intro s k d _ hk
      unfold bfsLoop
      exact hk
  | succ f ih =>
      intro s k d hinv hk
      unfold bfsLoop
      cases hq : s.queue with
      | nil => exact hk
      | cons current rest =>
          exact ih _ k d (bfsProcess_inv input root hwf hroot adjacency current rest s hq hinv)
            (bfsProcess_depth_persistent input adjacency current { s with queue := rest }
              hinv.depthDomVisible k d hk)

theorem bfsProcess_visible_mono (input : LayoutInput)
    (adjacency : List (String × List String)) (current : QueueEntry) (s : BfsState)
    (k : String) (hk : k ∈ s.visible) :
    k ∈ (bfsProcess input adjacency current s).visible := by
  unfold bfsProcess
  cases hfind : alFind input.nodesById current.id with
  | none => exact hk
  | some node =>
      dsimp only
      by_cases hvis : node.id ∈ s.visible
      · rw [if_pos hvis]
        exact hk
      · rw [if_neg hvis]
        by_cases hguard : (¬ node.expanded = true ∨ current.depth ≥ input.connectionDepth)
        · rw [if_pos hguard]
          exact List.mem_append_left _ hk
        · rw [if_neg hguard]
          rw [(enqueue_foldl_fields node.id (current.depth + 1) _ _).1]
          exact List.mem_append_left _ hk

theorem bfsLoop_visible_mono (input : LayoutInput)
    (adjacency : List (String × List String)) :
    ∀ (fuel : ℕ) (s : BfsState) (k : String), k ∈ s.visible →
      k ∈ (bfsLoop input adjacency fuel s).visible := by
  intro fuel
  induction fuel with
  | zero =>
      intro s k hk
      unfold bfsLoop
      exact hk
  | succ f ih =>
      intro s k hk
      unfold bfsLoop
      cases hq : s.queue with
      | nil => exact hk
      | cons current rest =>
          exact ih _ k (bfsProcess_visible_mono input adjacency current _ k hk)

theorem bfsProcess_admits (input : LayoutInput)
    (adjacency : List (String × List String)) (current : QueueEntry) (s : BfsState)
    (node : GraphNodeEntity) (hfind : alFind input.nodesById current.id = some node)
    (hid : node.id = current.id) :
    current.id ∈ (bfsProcess input adjacency current s).visible := by
  unfold bfsProcess
  rw [hfind]
  dsimp only
  by_cases hvis : node.id ∈ s.visible
  · rw [if_pos hvis, ← hid]
    exact hvis
  · rw [if_neg hvis]
    by_cases hguard : (¬ node.expanded = true ∨ current.depth ≥ input.connectionDepth)
    · rw [if_pos hguard, ← hid]
      exact List.mem_append_right _ (List.mem_singleton.mpr rfl)
    · rw [if_neg hguard]
      rw [(enqueue_foldl_fields node.id (current.depth + 1) _ _).1, ← hid]
      exact List.mem_append_right _ (List.mem_singleton.mpr rfl)

theorem bfsRun_root_visible (input : LayoutInput) (root : String)
    (hwf : WfNodeMap input) (hroot : (alFind input.nodesById root).isSome) :
    root ∈ (bfsRun input root).visible := by
  unfold bfsRun
  have hfuel : bfsFuel input =
      (MAX_VISIBLE_SIBLINGS * input.nodesById.length + input.nodesById.length) + 1 := by
    unfold bfsFuel
    omega
  rw [hfuel]
  unfold bfsLoop
  dsimp only
  obtain ⟨node, hnode⟩ := Option.isSome_iff_exists.mp hroot
  exact bfsLoop_visible_mono input _ _ _ root
    (bfsProcess_admits input _ ⟨root, 0⟩ _ node hnode (hwf _ _ hnode))

/-- C6: in every topology produced by `computeLayoutTopology` (on a node
map keying each record by its own id), the root node is visible with
recorded depth 0, a depth once recorded by the BFS is never overwritten
(first write wins), and every recorded traversed parent to child pair with
a visible child satisfies depth(child) = depth(parent) + 1. -/
theorem bfs_depth_invariants (input : LayoutInput) (topo : LayoutTopology)
    (hwf : WfNodeMap input) (h : computeLayoutTopology input = some topo) :
    topo.rootNodeId ∈ topo.visibleNodeIds ∧
    alFind topo.depthByNodeId topo.rootNodeId = some 0 ∧
    (∀ (fuel : ℕ) (s : BfsState) (k : String) (d : ℕ),
        BfsInv input topo.rootNodeId s → alFind s.depthByNodeId k = some d →
        alFind (bfsLoop input (buildAdjacency input.edges) fuel s).depthByNodeId k = some d) ∧
    (∀ c p, alFind (bfsRun input topo.rootNodeId).parentByNodeId c = some (some p) →
        c ∈ topo.visibleNodeIds →
        ∃ dp, alFind topo.depthByNodeId p = some dp ∧
          alFind topo.depthByNodeId c = some (dp + 1)) := by
  unfold computeLayoutTopology at h
  cases hrid : input.rootNodeId with
  | none =>
      rw [hrid] at h
      cases h
  | some root =>
      rw [hrid] at h
      dsimp only at h
      by_cases hre : root = ""
      · rw [if_pos hre] at h
        cases h
      · rw [if_neg hre] at h
        cases hfind : alFind input.nodesById root with
        | none =>
            rw [hfind] at h
            cases h
        | some rn =>
            rw [hfind] at h
            dsimp only at h
            have hroot : (alFind input.nodesById root).isSome := by
              rw [hfind]
              rfl
            rcases Option.some_inj.mp h with rfl
            dsimp only
            have hinvf : BfsInv input root (bfsRun input root) :=
              bfsLoop_inv input root hwf hroot _ _ _ (bfsInitial_inv input root)
            have hrv : root ∈ (bfsRun input root).visible :=
              bfsRun_root_visible input root hwf hroot
            refine ⟨hrv, hinvf.rootDepth hrv, ?_, ?_⟩
            · intro fuel s k d hs hk
              exact bfsLoop_depth_persistent input root hwf hroot _ fuel s k d hs hk
            · intro c p hcp hcv
              rcases hinvf.parentDepth c p hcp with ⟨dp, hdp, hcase⟩
              rcases hcase with ⟨_, hcd⟩ | ⟨hcnv, _⟩
              · exact ⟨dp, hdp, hcd⟩
              · exact absurd hcv hcnv

/-- C6 witness: the BFS invariants applied to a concrete two-node input
(root with one edge-connected child). -/
theorem bfs_depth_invariants_witness :
    computeLayoutTopology c6Input = some c6Topo ∧
    c6Topo.rootNodeId ∈ c6Topo.visibleNodeIds ∧
    alFind c6Topo.depthByNodeId c6Topo.rootNodeId = some 0 ∧
    (∃ dp, alFind c6Topo.depthByNodeId "r" = some dp ∧
      alFind c6Topo.depthByNodeId "c" = some (dp + 1)) := by
  have hwf : WfNodeMap c6Input := by
    intro k n hk
    simp only [c6Input, alFind] at hk
    by_cases h1 : ("r" : String) = k
    · rw [if_pos h1] at hk
      rcases Option.some_inj.mp hk with rfl
      exact h1
    · rw [if_neg h1] at hk
      by_cases h2 : ("c" : String) = k
      · rw [if_pos h2] at hk
        rcases Option.some_inj.mp hk with rfl
        exact h2
      · rw [if_neg h2] at hk
        cases hk
  have heq : computeLayoutTopology c6Input = some c6Topo := by rfl
  have h := bfs_depth_invariants c6Input c6Topo hwf heq
  refine ⟨heq, h.1, h.2.1, ?_⟩
  refine h.2.2.2 "c" "r" (by rfl) (by decide)

end LxDIG
